import Mathlib

/-!
Verification of the `SocialGraph` component (src/graph.py) of the
Social-Network-API repository.

The graph state is a pair of Python dicts mapping an integer user id to a
Python list of integer user ids.  A Python dict is modelled as an
association list that keeps insertion order: a new key is appended at the
end, an update replaces the value of the (first) entry with that key, and
lookup returns the value of the first entry with the key (in every state a
real Python dict can be in, keys occur at most once, so "first" is exact).
`dict.get(k, [])` is `lookupD`.  Python `list.remove` (which raises
`ValueError` when the element is absent) is `pyRemove`, returning `none`
exactly in the raising case; consequently `unfollow_user`, whose second
`remove` can in principle fail, returns an `Option`.
-/

namespace SocialNetwork

/-- Keys of an association list, in insertion order (dict iteration order). -/
def dkeys (d : List (Int × List Int)) : List Int :=
  d.map Prod.fst

/-- Python `dict.get(k, [])`: value of the first entry with key `k`, else `[]`. -/
def lookupD : List (Int × List Int) → Int → List Int
  | [], _ => []
  | (k', v) :: rest, k => if k' = k then v else lookupD rest k

/-- Python `dict[k] = v`: replace the value of the first entry with key `k`,
or append a new entry when the key is absent. -/
def dset : List (Int × List Int) → Int → List Int → List (Int × List Int)
  | [], k, v => [(k, v)]
  | (k', v') :: rest, k, v =>
      if k' = k then (k, v) :: rest else (k', v') :: dset rest k v

/-- Python `list.remove(x)`: delete the first occurrence of `x`; `none` when
`x` is absent (the `ValueError` case). -/
def pyRemove (x : Int) : List Int → Option (List Int)
  | [] => none
  | y :: ys => if y = x then some ys else (pyRemove x ys).map (y :: ·)

/-- The two adjacency mappings of `SocialGraph.__init__`. -/
structure SocialGraph where
  adjacency_list : List (Int × List Int)
  reverse_adjacency_list : List (Int × List Int)
deriving DecidableEq, Repr

/-- The state built by `SocialGraph.__init__`: both dicts empty. -/
def emptyGraph : SocialGraph := ⟨[], []⟩

/-- `SocialGraph.add_user`. -/
def add_user (g : SocialGraph) (user_id : Int) : SocialGraph :=
  if user_id ∈ dkeys g.adjacency_list then g
  else ⟨g.adjacency_list ++ [(user_id, [])],
        g.reverse_adjacency_list ++ [(user_id, [])]⟩

/-- `SocialGraph.follow_user`. -/
def follow_user (g : SocialGraph) (follower_id followed_id : Int) : SocialGraph :=
  let g1 := if follower_id ∈ dkeys g.adjacency_list then g else add_user g follower_id
  let g2 := if followed_id ∈ dkeys g1.adjacency_list then g1 else add_user g1 followed_id
  if followed_id ∈ lookupD g2.adjacency_list follower_id then g2
  else
    ⟨dset g2.adjacency_list follower_id
        (lookupD g2.adjacency_list follower_id ++ [followed_id]),
      dset g2.reverse_adjacency_list followed_id
        (lookupD g2.reverse_adjacency_list followed_id ++ [follower_id])⟩

/-- `SocialGraph.unfollow_user`; `none` is the state in which the second
`list.remove` raises `ValueError`. -/
def unfollow_user (g : SocialGraph) (follower_id followed_id : Int) :
    Option SocialGraph :=
  if follower_id ∈ dkeys g.adjacency_list then
    if followed_id ∈ lookupD g.adjacency_list follower_id then
      (pyRemove followed_id (lookupD g.adjacency_list follower_id)).bind fun av =>
        (pyRemove follower_id (lookupD g.reverse_adjacency_list followed_id)).map fun rv =>
          ⟨dset g.adjacency_list follower_id av,
            dset g.reverse_adjacency_list followed_id rv⟩
    else some g
  else some g

/-- `SocialGraph.get_following`. -/
def get_following (g : SocialGraph) (user_id : Int) : List Int :=
  lookupD g.adjacency_list user_id

/-- `SocialGraph.get_followers`. -/
def get_followers (g : SocialGraph) (user_id : Int) : List Int :=
  lookupD g.reverse_adjacency_list user_id

/-- The graph states reachable from the empty graph by `add_user`,
`follow_user` and (non-raising) `unfollow_user` calls. -/
inductive Reachable : SocialGraph → Prop
  | empty : Reachable emptyGraph
  | add (g : SocialGraph) (u : Int) : Reachable g → Reachable (add_user g u)
  | follow (g : SocialGraph) (a b : Int) : Reachable g → Reachable (follow_user g a b)
  | unfollow (g g' : SocialGraph) (a b : Int) :
      Reachable g → unfollow_user g a b = some g' → Reachable g'

/-! ### Dictionary lemmas -/

theorem lookupD_eq_nil (d : List (Int × List Int)) (k : Int)
    (h : k ∉ dkeys d) : lookupD d k = [] := by
  induction d with
  | nil => rfl
  | cons kv rest ih =>
    simp only [dkeys, List.map_cons, List.mem_cons] at h
    push_neg at h
    simp only [lookupD]
    rw [if_neg (Ne.symm h.1)]
    exact ih h.2

theorem lookupD_append_left (d d' : List (Int × List Int)) (k : Int)
    (h : k ∈ dkeys d) : lookupD (d ++ d') k = lookupD d k := by
  induction d with
  | nil => simp [dkeys] at h
  | cons kv rest ih =>
    simp only [dkeys, List.map_cons, List.mem_cons] at h
    rw [List.cons_append]
    by_cases hk : kv.1 = k
    · simp only [lookupD, if_pos hk]
    · simp only [lookupD, if_neg hk]
      exact ih (h.resolve_left fun hh => hk hh.symm)

theorem lookupD_append_right (d d' : List (Int × List Int)) (k : Int)
    (h : k ∉ dkeys d) : lookupD (d ++ d') k = lookupD d' k := by
  induction d with
  | nil => rfl
  | cons kv rest ih =>
    simp only [dkeys, List.map_cons, List.mem_cons] at h
    push_neg at h
    rw [List.cons_append]
    simp only [lookupD, if_neg (Ne.symm h.1)]
    exact ih h.2

theorem lookupD_dset_self (d : List (Int × List Int)) (k : Int) (v : List Int) :
    lookupD (dset d k v) k = v := by
  induction d with
  | nil => simp [dset, lookupD]
  | cons kv rest ih =>
    by_cases hk : kv.1 = k
    · subst hk
      simp [dset, lookupD]
    · simp only [dset, if_neg hk, lookupD, if_neg hk]
      exact ih

theorem lookupD_dset_ne (d : List (Int × List Int)) (k k' : Int) (v : List Int)
    (h : k' ≠ k) : lookupD (dset d k v) k' = lookupD d k' := by
  induction d with
  | nil =>
    simp only [dset, lookupD]
    rw [if_neg (Ne.symm h)]
  | cons kv rest ih =>
    by_cases hk : kv.1 = k
    · have hkvk' : ¬ kv.1 = k' := fun hh => h (hk.symm.trans hh).symm
      simp only [dset, if_pos hk, lookupD, if_neg (Ne.symm h), if_neg hkvk']
    · simp only [dset, if_neg hk, lookupD]
      by_cases hk' : kv.1 = k'
      · rw [if_pos hk', if_pos hk']
      · rw [if_neg hk', if_neg hk']
        exact ih

theorem dkeys_dset_of_mem (d : List (Int × List Int)) (k : Int) (v : List Int)
    (h : k ∈ dkeys d) : dkeys (dset d k v) = dkeys d := by
  induction d with
  | nil => simp [dkeys] at h
  | cons kv rest ih =>
    by_cases hk : kv.1 = k
    · subst hk
      simp [dset, dkeys]
    · simp only [dkeys, List.map_cons, List.mem_cons] at h
      rcases h with h | h
      · exact absurd h.symm hk
      · simp only [dset, if_neg hk, dkeys, List.map_cons]
        have := ih h
        simp only [dkeys] at this
        rw [this]

theorem dkeys_dset_of_not_mem (d : List (Int × List Int)) (k : Int) (v : List Int)
    (h : k ∉ dkeys d) : dkeys (dset d k v) = dkeys d ++ [k] := by
  induction d with
  | nil => simp [dset, dkeys]
  | cons kv rest ih =>
    simp only [dkeys, List.map_cons, List.mem_cons] at h
    push_neg at h
    simp only [dset, if_neg (Ne.symm h.1), dkeys, List.map_cons]
    have := ih h.2
    simp only [dkeys] at this
    rw [this, List.cons_append]

theorem dset_lookupD_self (d : List (Int × List Int)) (k : Int)
    (h : k ∈ dkeys d) : dset d k (lookupD d k) = d := by
  induction d with
  | nil => simp [dkeys] at h
  | cons kv rest ih =>
    by_cases hk : kv.1 = k
    · subst hk
      simp [dset, lookupD]
    · simp only [dkeys, List.map_cons, List.mem_cons] at h
      rcases h with h | h
      · exact absurd h.symm hk
      · simp [dset, hk, lookupD, ih h]

/-! ### pyRemove lemmas -/

theorem pyRemove_isSome (x : Int) (l : List Int) (h : x ∈ l) :
    (pyRemove x l).isSome := by
  induction l with
  | nil => simp at h
  | cons y ys ih =>
    by_cases hy : y = x
    · simp [pyRemove, hy]
    · rcases List.mem_cons.mp h with h | h
      · exact absurd h.symm hy
      · simp only [pyRemove, if_neg hy]
        rcases Option.isSome_iff_exists.mp (ih h) with ⟨l', hl'⟩
        simp [hl']

theorem pyRemove_none (x : Int) (l : List Int) (h : x ∉ l) :
    pyRemove x l = none := by
  induction l with
  | nil => rfl
  | cons y ys ih =>
    simp only [List.mem_cons] at h
    push_neg at h
    have hu : pyRemove x (y :: ys) =
        if y = x then some ys else (pyRemove x ys).map (y :: ·) := rfl
    rw [hu, if_neg (Ne.symm h.1), ih h.2]
    rfl

theorem pyRemove_spec (x : Int) (l l' : List Int)
    (h : pyRemove x l = some l') :
    ∃ l₁ l₂, l = l₁ ++ x :: l₂ ∧ x ∉ l₁ ∧ l' = l₁ ++ l₂ := by
  induction l generalizing l' with
  | nil => simp [pyRemove] at h
  | cons y ys ih =>
    by_cases hy : y = x
    · subst hy
      have he : pyRemove y (y :: ys) = some ys := by
        show (if y = y then some ys else (pyRemove y ys).map (y :: ·)) = some ys
        rw [if_pos rfl]
      rw [he] at h
      exact ⟨[], ys, by simp, by simp, (Option.some.inj h).symm⟩
    · have hu : pyRemove x (y :: ys) =
          if y = x then some ys else (pyRemove x ys).map (y :: ·) := rfl
      rw [hu, if_neg hy] at h
      rcases Option.map_eq_some'.mp h with ⟨m, hm, hm'⟩
      rcases ih m hm with ⟨l₁, l₂, he, hx, hl⟩
      exact ⟨y :: l₁, l₂, by simp [he], by
        simp only [List.mem_cons]
        push_neg
        exact ⟨fun hh => hy hh.symm, hx⟩, by simp [← hm', hl]⟩

theorem pyRemove_append_singleton (x : Int) (l : List Int) (h : x ∉ l) :
    pyRemove x (l ++ [x]) = some l := by
  induction l with
  | nil => simp [pyRemove]
  | cons y ys ih =>
    simp only [List.mem_cons] at h
    push_neg at h
    have hu : pyRemove x ((y :: ys) ++ [x]) =
        if y = x then some (ys ++ [x])
        else (pyRemove x (ys ++ [x])).map (y :: ·) := rfl
    rw [hu, if_neg (Ne.symm h.1), ih h.2]
    rfl

theorem mem_pyRemove_of_nodup (x : Int) (l l' : List Int)
    (hn : l.Nodup) (h : pyRemove x l = some l') :
    ∀ y, (y ∈ l' ↔ y ∈ l ∧ y ≠ x) := by
  rcases pyRemove_spec x l l' h with ⟨l₁, l₂, he, hx, hl⟩
  subst hl
  subst he
  intro y
  constructor
  · intro hy
    rcases List.mem_append.mp hy with hy | hy
    · refine ⟨by simp [hy], fun hh => hx (hh ▸ hy)⟩
    · refine ⟨by simp [hy], ?_⟩
      intro hh
      subst hh
      have := List.Nodup.of_append_right hn
      simp at this
      exact this.1 hy
  · rintro ⟨hy, hne⟩
    rcases List.mem_append.mp hy with hy | hy
    · exact List.mem_append.mpr (Or.inl hy)
    · rcases List.mem_cons.mp hy with hy | hy
      · exact absurd hy hne
      · exact List.mem_append.mpr (Or.inr hy)

theorem nodup_pyRemove (x : Int) (l l' : List Int)
    (hn : l.Nodup) (h : pyRemove x l = some l') : l'.Nodup := by
  rcases pyRemove_spec x l l' h with ⟨l₁, l₂, he, hx, hl⟩
  subst hl
  subst he
  have h1 := List.Nodup.of_append_left hn
  have h2 := (List.Nodup.of_append_right hn).of_cons
  refine List.nodup_append.mpr ⟨h1, h2, ?_⟩
  intro a ha hb
  have := List.disjoint_of_nodup_append hn ha
  simp only [List.mem_cons] at this
  exact this (Or.inr hb)

/-! ### add_user / follow_user normal forms -/

theorem dkeys_append (d e : List (Int × List Int)) :
    dkeys (d ++ e) = dkeys d ++ dkeys e := by
  simp [dkeys]

theorem lookupD_append_unit (d : List (Int × List Int)) (u k : Int) :
    lookupD (d ++ [(u, [])]) k = lookupD d k := by
  by_cases h : k ∈ dkeys d
  · exact lookupD_append_left d _ k h
  · rw [lookupD_append_right d _ k h, lookupD_eq_nil d k h]
    by_cases hu : u = k
    · simp [lookupD, hu]
    · simp [lookupD, hu]

theorem add_user_of_mem (g : SocialGraph) (u : Int)
    (h : u ∈ dkeys g.adjacency_list) : add_user g u = g := by
  simp [add_user, h]

theorem add_user_adj_lookup (g : SocialGraph) (u k : Int) :
    lookupD (add_user g u).adjacency_list k = lookupD g.adjacency_list k := by
  unfold add_user
  by_cases h : u ∈ dkeys g.adjacency_list
  · rw [if_pos h]
  · rw [if_neg h]
    exact lookupD_append_unit _ u k

theorem add_user_rev_lookup (g : SocialGraph) (u k : Int) :
    lookupD (add_user g u).reverse_adjacency_list k =
      lookupD g.reverse_adjacency_list k := by
  unfold add_user
  by_cases h : u ∈ dkeys g.adjacency_list
  · rw [if_pos h]
  · rw [if_neg h]
    exact lookupD_append_unit _ u k

theorem mem_dkeys_add_user (g : SocialGraph) (u k : Int) :
    k ∈ dkeys (add_user g u).adjacency_list ↔
      k ∈ dkeys g.adjacency_list ∨ k = u := by
  unfold add_user
  by_cases h : u ∈ dkeys g.adjacency_list
  · rw [if_pos h]
    constructor
    · exact Or.inl
    · rintro (hk | rfl)
      · exact hk
      · exact h
  · rw [if_neg h]
    simp [dkeys_append, dkeys]

theorem dset_dset_self (d : List (Int × List Int)) (k : Int) (v w : List Int) :
    dset (dset d k v) k w = dset d k w := by
  induction d with
  | nil => simp [dset]
  | cons kv rest ih =>
    by_cases hk : kv.1 = k
    · simp [dset, hk]
    · simp [dset, hk, ih]

theorem follow_user_eq (g : SocialGraph) (a b : Int) :
    follow_user g a b =
      (if b ∈ lookupD (add_user (add_user g a) b).adjacency_list a
       then add_user (add_user g a) b
       else ⟨dset (add_user (add_user g a) b).adjacency_list a
               (lookupD (add_user (add_user g a) b).adjacency_list a ++ [b]),
             dset (add_user (add_user g a) b).reverse_adjacency_list b
               (lookupD (add_user (add_user g a) b).reverse_adjacency_list b ++ [a])⟩) := by
  have h1 : (if a ∈ dkeys g.adjacency_list then g else add_user g a) = add_user g a := by
    by_cases ha : a ∈ dkeys g.adjacency_list
    · rw [if_pos ha, add_user_of_mem g a ha]
    · rw [if_neg ha]
  have h2 : ∀ g1 : SocialGraph,
      (if b ∈ dkeys g1.adjacency_list then g1 else add_user g1 b) = add_user g1 b := by
    intro g1
    by_cases hb : b ∈ dkeys g1.adjacency_list
    · rw [if_pos hb, add_user_of_mem g1 b hb]
    · rw [if_neg hb]
  show (let g1 := if a ∈ dkeys g.adjacency_list then g else add_user g a
        let g2 := if b ∈ dkeys g1.adjacency_list then g1 else add_user g1 b
        if b ∈ lookupD g2.adjacency_list a then g2
        else ⟨dset g2.adjacency_list a (lookupD g2.adjacency_list a ++ [b]),
              dset g2.reverse_adjacency_list b
                (lookupD g2.reverse_adjacency_list b ++ [a])⟩) = _
  rw [show (let g1 := if a ∈ dkeys g.adjacency_list then g else add_user g a
        let g2 := if b ∈ dkeys g1.adjacency_list then g1 else add_user g1 b
        if b ∈ lookupD g2.adjacency_list a then g2
        else ⟨dset g2.adjacency_list a (lookupD g2.adjacency_list a ++ [b]),
              dset g2.reverse_adjacency_list b
                (lookupD g2.reverse_adjacency_list b ++ [a])⟩) =
      (let g2 := if b ∈ dkeys (add_user g a).adjacency_list then add_user g a
                 else add_user (add_user g a) b
       if b ∈ lookupD g2.adjacency_list a then g2
       else ⟨dset g2.adjacency_list a (lookupD g2.adjacency_list a ++ [b]),
             dset g2.reverse_adjacency_list b
               (lookupD g2.reverse_adjacency_list b ++ [a])⟩) from by rw [h1]]
  rw [show (if b ∈ dkeys (add_user g a).adjacency_list then add_user g a
            else add_user (add_user g a) b) = add_user (add_user g a) b from h2 _]

/-! ### The consistency invariant of the two mappings -/

/-- Structural invariant of every reachable `SocialGraph` state: keys occur
once, the two dicts are keyed by the same users, each adjacency value is
duplicate-free, and the forward and reverse mappings are duals. -/
structure Inv (g : SocialGraph) : Prop where
  keysNodup : (dkeys g.adjacency_list).Nodup
  keysEq : dkeys g.adjacency_list = dkeys g.reverse_adjacency_list
  fwdNodup : ∀ u, (lookupD g.adjacency_list u).Nodup
  revNodup : ∀ u, (lookupD g.reverse_adjacency_list u).Nodup
  dual : ∀ u v, v ∈ lookupD g.adjacency_list u ↔ u ∈ lookupD g.reverse_adjacency_list v

theorem inv_empty : Inv emptyGraph := by
  refine ⟨List.nodup_nil, rfl, ?_, ?_, ?_⟩ <;> intro u <;> simp [emptyGraph, lookupD]

theorem inv_add_user (g : SocialGraph) (u : Int) (hg : Inv g) :
    Inv (add_user g u) := by
  unfold add_user
  by_cases h : u ∈ dkeys g.adjacency_list
  · rw [if_pos h]
    exact hg
  · rw [if_neg h]
    have hrev : u ∉ dkeys g.reverse_adjacency_list := hg.keysEq ▸ h
    refine ⟨?_, ?_, ?_, ?_, ?_⟩
    · rw [dkeys_append]
      refine List.Nodup.append hg.keysNodup (by simp [dkeys]) ?_
      intro x hx hx'
      simp [dkeys] at hx'
      exact h (hx' ▸ hx)
    · rw [dkeys_append, dkeys_append, hg.keysEq]
    · intro w
      rw [show lookupD (g.adjacency_list ++ [(u, [])]) w =
            lookupD g.adjacency_list w from lookupD_append_unit _ u w]
      exact hg.fwdNodup w
    · intro w
      rw [show lookupD (g.reverse_adjacency_list ++ [(u, [])]) w =
            lookupD g.reverse_adjacency_list w from lookupD_append_unit _ u w]
      exact hg.revNodup w
    · intro w v
      rw [show lookupD (g.adjacency_list ++ [(u, [])]) w =
            lookupD g.adjacency_list w from lookupD_append_unit _ u w,
          show lookupD (g.reverse_adjacency_list ++ [(u, [])]) v =
            lookupD g.reverse_adjacency_list v from lookupD_append_unit _ u v]
      exact hg.dual w v

theorem inv_follow_user (g : SocialGraph) (a b : Int) (hg : Inv g) :
    Inv (follow_user g a b) := by
  rw [follow_user_eq]
  set g2 := add_user (add_user g a) b with hg2
  have hinv2 : Inv g2 := inv_add_user _ b (inv_add_user g a hg)
  have hak : a ∈ dkeys g2.adjacency_list := by
    rw [hg2, mem_dkeys_add_user]
    exact Or.inl ((mem_dkeys_add_user g a a).mpr (Or.inr rfl))
  have hbk : b ∈ dkeys g2.adjacency_list := by
    rw [hg2, mem_dkeys_add_user]
    exact Or.inr rfl
  have hakr : a ∈ dkeys g2.reverse_adjacency_list := hinv2.keysEq ▸ hak
  have hbkr : b ∈ dkeys g2.reverse_adjacency_list := hinv2.keysEq ▸ hbk
  by_cases hmem : b ∈ lookupD g2.adjacency_list a
  · rw [if_pos hmem]
    exact hinv2
  · rw [if_neg hmem]
    have hanotin : a ∉ lookupD g2.reverse_adjacency_list b :=
      fun hh => hmem ((hinv2.dual a b).mpr hh)
    refine ⟨?_, ?_, ?_, ?_, ?_⟩
    · rw [dkeys_dset_of_mem _ a _ hak]
      exact hinv2.keysNodup
    · rw [dkeys_dset_of_mem _ a _ hak, dkeys_dset_of_mem _ b _ hbkr]
      exact hinv2.keysEq
    · intro u
      by_cases hu : u = a
      · subst hu
        rw [lookupD_dset_self]
        exact List.Nodup.append (hinv2.fwdNodup u) (List.nodup_singleton b)
          (by simpa using fun hb2 => hmem hb2)
      · rw [lookupD_dset_ne _ _ _ _ hu]
        exact hinv2.fwdNodup u
    · intro v
      by_cases hv : v = b
      · subst hv
        rw [lookupD_dset_self]
        exact List.Nodup.append (hinv2.revNodup v) (List.nodup_singleton a)
          (by simpa using fun ha2 => hanotin ha2)
      · rw [lookupD_dset_ne _ _ _ _ hv]
        exact hinv2.revNodup v
    · intro u v
      by_cases hu : u = a <;> by_cases hv : v = b
      · subst hu; subst hv
        rw [lookupD_dset_self, lookupD_dset_self]
        simp
      · subst hu
        rw [lookupD_dset_self, lookupD_dset_ne _ _ _ _ hv]
        simp only [List.mem_append, List.mem_singleton]
        constructor
        · rintro (h | h)
          · exact (hinv2.dual u v).mp h
          · exact absurd h hv
        · intro h
          exact Or.inl ((hinv2.dual u v).mpr h)
      · subst hv
        rw [lookupD_dset_ne _ _ _ _ hu, lookupD_dset_self]
        simp only [List.mem_append, List.mem_singleton]
        constructor
        · intro h
          exact Or.inl ((hinv2.dual u v).mp h)
        · rintro (h | h)
          · exact (hinv2.dual u v).mpr h
          · exact absurd h hu
      · rw [lookupD_dset_ne _ _ _ _ hu, lookupD_dset_ne _ _ _ _ hv]
        exact hinv2.dual u v

theorem unfollow_user_isSome (g : SocialGraph) (a b : Int) (hg : Inv g) :
    ∃ g', unfollow_user g a b = some g' ∧
      g' = (if a ∈ dkeys g.adjacency_list then
              if b ∈ lookupD g.adjacency_list a then
                ⟨dset g.adjacency_list a
                    ((pyRemove b (lookupD g.adjacency_list a)).getD []),
                  dset g.reverse_adjacency_list b
                    ((pyRemove a (lookupD g.reverse_adjacency_list b)).getD [])⟩
              else g
            else g) := by
  unfold unfollow_user
  by_cases ha : a ∈ dkeys g.adjacency_list
  · rw [if_pos ha, if_pos ha]
    by_cases hb : b ∈ lookupD g.adjacency_list a
    · rw [if_pos hb, if_pos hb]
      rcases Option.isSome_iff_exists.mp (pyRemove_isSome b _ hb) with ⟨av, hav⟩
      have har : a ∈ lookupD g.reverse_adjacency_list b := (hg.dual a b).mp hb
      rcases Option.isSome_iff_exists.mp (pyRemove_isSome a _ har) with ⟨rv, hrv⟩
      refine ⟨⟨dset g.adjacency_list a av, dset g.reverse_adjacency_list b rv⟩, ?_, ?_⟩
      · rw [hav, hrv]
        rfl
      · rw [hav, hrv]
        rfl
    · rw [if_neg hb, if_neg hb]
      exact ⟨g, rfl, rfl⟩
  · rw [if_neg ha, if_neg ha]
    exact ⟨g, rfl, rfl⟩

theorem inv_unfollow_user (g g' : SocialGraph) (a b : Int) (hg : Inv g)
    (h : unfollow_user g a b = some g') : Inv g' := by
  unfold unfollow_user at h
  by_cases ha : a ∈ dkeys g.adjacency_list
  · rw [if_pos ha] at h
    by_cases hb : b ∈ lookupD g.adjacency_list a
    · rw [if_pos hb] at h
      rcases Option.isSome_iff_exists.mp (pyRemove_isSome b _ hb) with ⟨av, hav⟩
      have har : a ∈ lookupD g.reverse_adjacency_list b := (hg.dual a b).mp hb
      rcases Option.isSome_iff_exists.mp (pyRemove_isSome a _ har) with ⟨rv, hrv⟩
      rw [hav, hrv] at h
      have h2 : (⟨dset g.adjacency_list a av,
          dset g.reverse_adjacency_list b rv⟩ : SocialGraph) = g' :=
        Option.some.inj h
      subst h2
      have hbr : b ∈ dkeys g.reverse_adjacency_list := by
        by_contra hc
        rw [lookupD_eq_nil _ _ hc] at har
        exact absurd har (List.not_mem_nil a)
      have hmemav := mem_pyRemove_of_nodup b _ av (hg.fwdNodup a) hav
      have hmemrv := mem_pyRemove_of_nodup a _ rv (hg.revNodup b) hrv
      refine ⟨?_, ?_, ?_, ?_, ?_⟩
      · rw [dkeys_dset_of_mem _ a _ ha]
        exact hg.keysNodup
      · rw [dkeys_dset_of_mem _ a _ ha, dkeys_dset_of_mem _ b _ hbr]
        exact hg.keysEq
      · intro u
        by_cases hu : u = a
        · subst hu
          rw [lookupD_dset_self]
          exact nodup_pyRemove b _ av (hg.fwdNodup u) hav
        · rw [lookupD_dset_ne _ _ _ _ hu]
          exact hg.fwdNodup u
      · intro v
        by_cases hv : v = b
        · subst hv
          rw [lookupD_dset_self]
          exact nodup_pyRemove a _ rv (hg.revNodup v) hrv
        · rw [lookupD_dset_ne _ _ _ _ hv]
          exact hg.revNodup v
      · intro u v
        by_cases hu : u = a <;> by_cases hv : v = b
        · subst hu; subst hv
          rw [lookupD_dset_self, lookupD_dset_self]
          rw [hmemav v, hmemrv u]
          simp
        · subst hu
          rw [lookupD_dset_self, lookupD_dset_ne _ _ _ _ hv, hmemav v]
          constructor
          · rintro ⟨h1, _⟩
            exact (hg.dual u v).mp h1
          · intro h1
            exact ⟨(hg.dual u v).mpr h1, hv⟩
        · subst hv
          rw [lookupD_dset_ne _ _ _ _ hu, lookupD_dset_self, hmemrv u]
          constructor
          · intro h1
            exact ⟨(hg.dual u v).mp h1, hu⟩
          · rintro ⟨h1, _⟩
            exact (hg.dual u v).mpr h1
        · rw [lookupD_dset_ne _ _ _ _ hu, lookupD_dset_ne _ _ _ _ hv]
          exact hg.dual u v
    · rw [if_neg hb] at h
      cases h
      exact hg
  · rw [if_neg ha] at h
    cases h
    exact hg

theorem inv_of_reachable (g : SocialGraph) (h : Reachable g) : Inv g := by
  induction h with
  | empty => exact inv_empty
  | add g u _ ih => exact inv_add_user g u ih
  | follow g a b _ ih => exact inv_follow_user g a b ih
  | unfollow g g' a b _ hs ih => exact inv_unfollow_user g g' a b ih hs

/-! ### Facts about follow_user needed for idempotence and round-trip -/

theorem follow_mem_a (g : SocialGraph) (a b : Int) :
    a ∈ dkeys (follow_user g a b).adjacency_list := by
  rw [follow_user_eq]
  set g2 := add_user (add_user g a) b with hg2
  have hak : a ∈ dkeys g2.adjacency_list := by
    rw [hg2, mem_dkeys_add_user]
    exact Or.inl ((mem_dkeys_add_user g a a).mpr (Or.inr rfl))
  by_cases hmem : b ∈ lookupD g2.adjacency_list a
  · rw [if_pos hmem]
    exact hak
  · rw [if_neg hmem]
    show a ∈ dkeys (dset g2.adjacency_list a _)
    rw [dkeys_dset_of_mem _ _ _ hak]
    exact hak

theorem follow_mem_b (g : SocialGraph) (a b : Int) :
    b ∈ dkeys (follow_user g a b).adjacency_list := by
  rw [follow_user_eq]
  set g2 := add_user (add_user g a) b with hg2
  have hak : a ∈ dkeys g2.adjacency_list := by
    rw [hg2, mem_dkeys_add_user]
    exact Or.inl ((mem_dkeys_add_user g a a).mpr (Or.inr rfl))
  have hbk : b ∈ dkeys g2.adjacency_list := by
    rw [hg2, mem_dkeys_add_user]
    exact Or.inr rfl
  by_cases hmem : b ∈ lookupD g2.adjacency_list a
  · rw [if_pos hmem]
    exact hbk
  · rw [if_neg hmem]
    show b ∈ dkeys (dset g2.adjacency_list a _)
    rw [dkeys_dset_of_mem _ _ _ hak]
    exact hbk

theorem follow_following (g : SocialGraph) (a b : Int) :
    b ∈ lookupD (follow_user g a b).adjacency_list a := by
  rw [follow_user_eq]
  set g2 := add_user (add_user g a) b with hg2
  by_cases hmem : b ∈ lookupD g2.adjacency_list a
  · rw [if_pos hmem]
    exact hmem
  · rw [if_neg hmem]
    show b ∈ lookupD (dset g2.adjacency_list a
      (lookupD g2.adjacency_list a ++ [b])) a
    rw [lookupD_dset_self]
    simp

theorem follow_user_idem (g : SocialGraph) (a b : Int) :
    follow_user (follow_user g a b) a b = follow_user g a b := by
  rw [follow_user_eq (follow_user g a b) a b,
      add_user_of_mem _ a (follow_mem_a g a b),
      add_user_of_mem _ b (follow_mem_b g a b),
      if_pos (follow_following g a b)]

theorem follow_user_of_mem (g : SocialGraph) (a b : Int)
    (ha : a ∈ dkeys g.adjacency_list) (hb : b ∈ dkeys g.adjacency_list) :
    follow_user g a b =
      (if b ∈ lookupD g.adjacency_list a then g
       else ⟨dset g.adjacency_list a (lookupD g.adjacency_list a ++ [b]),
             dset g.reverse_adjacency_list b
               (lookupD g.reverse_adjacency_list b ++ [a])⟩) := by
  rw [follow_user_eq, add_user_of_mem g a ha, add_user_of_mem g b hb]

/-! ### Claims C1, C9, C5, C2 -/

/-- C1: in every reachable graph state, `v ∈ get_following(u)` iff
`u ∈ get_followers(v)` (the forward and reverse mappings are duals of one
edge set), and every id present as a key of either mapping is a key of
both. -/
theorem spec_C1 (g : SocialGraph) (h : Reachable g) :
    (∀ u v, v ∈ get_following g u ↔ u ∈ get_followers g v) ∧
    (∀ u, u ∈ dkeys g.adjacency_list ↔ u ∈ dkeys g.reverse_adjacency_list) := by
  have hi := inv_of_reachable g h
  refine ⟨fun u v => ?_, fun u => by rw [hi.keysEq]⟩
  unfold get_following get_followers
  exact hi.dual u v

/-- Witness for C1 at the concrete reachable state `follow_user empty 1 2`. -/
theorem spec_C1_witness :
    (2 ∈ get_following (follow_user emptyGraph 1 2) 1 ↔
      1 ∈ get_followers (follow_user emptyGraph 1 2) 2) ∧
    (1 ∈ dkeys (follow_user emptyGraph 1 2).adjacency_list ↔
      1 ∈ dkeys (follow_user emptyGraph 1 2).reverse_adjacency_list) :=
  ⟨(spec_C1 (follow_user emptyGraph 1 2)
      (Reachable.follow emptyGraph 1 2 Reachable.empty)).1 1 2,
   (spec_C1 (follow_user emptyGraph 1 2)
      (Reachable.follow emptyGraph 1 2 Reachable.empty)).2 1⟩

/-- C9: in every reachable state, whenever `followed_id` is in
`adjacency_list[follower_id]`, `follower_id` is in
`reverse_adjacency_list[followed_id]`, so both `list.remove` calls inside
`unfollow_user` succeed: the `ValueError` branch (`none`) is unreachable. -/
theorem spec_C9 (g : SocialGraph) (h : Reachable g) (a b : Int) :
    (b ∈ get_following g a → a ∈ get_followers g b) ∧
    ∃ g', unfollow_user g a b = some g' := by
  have hi := inv_of_reachable g h
  constructor
  · intro hm
    exact (hi.dual a b).mp hm
  · rcases unfollow_user_isSome g a b hi with ⟨g', hg', _⟩
    exact ⟨g', hg'⟩

/-- Witness for C9 at the concrete reachable state `follow_user empty 1 2`. -/
theorem spec_C9_witness :
    (2 ∈ get_following (follow_user emptyGraph 1 2) 1 →
      1 ∈ get_followers (follow_user emptyGraph 1 2) 2) ∧
    ∃ g', unfollow_user (follow_user emptyGraph 1 2) 1 2 = some g' :=
  spec_C9 (follow_user emptyGraph 1 2)
    (Reachable.follow emptyGraph 1 2 Reachable.empty) 1 2

/-- C5: `follow_user` is idempotent — calling it twice yields exactly the
state of calling it once (in particular the second call leaves
`get_following(a)` unchanged) — and on reachable states it never produces a
duplicate edge: every following list stays duplicate-free. -/
theorem spec_C5 (g : SocialGraph) (a b : Int) :
    follow_user (follow_user g a b) a b = follow_user g a b ∧
    (Reachable g → ∀ u, (get_following (follow_user g a b) u).Nodup) := by
  constructor
  · exact follow_user_idem g a b
  · intro h u
    unfold get_following
    exact (inv_follow_user g a b (inv_of_reachable g h)).fwdNodup u

/-- Witness for C5 at the empty graph with users 1 and 2. -/
theorem spec_C5_witness :
    follow_user (follow_user emptyGraph 1 2) 1 2 = follow_user emptyGraph 1 2 ∧
    (get_following (follow_user emptyGraph 1 2) 1).Nodup :=
  ⟨(spec_C5 emptyGraph 1 2).1, (spec_C5 emptyGraph 1 2).2 Reachable.empty 1⟩

/-- C2 counterexample: on the empty graph, `follow_user 1 2` implicitly
registers users 1 and 2, and `unfollow_user 1 2` removes only the edge, so
the mappings keep the two new (empty) entries and are NOT restored to their
pre-follow state. -/
theorem spec_C2_cex :
    unfollow_user (follow_user emptyGraph 1 2) 1 2 ≠ some emptyGraph := by
  decide

/-- C2 (amended): in every graph state satisfying the two-mapping
consistency invariant (in particular every reachable state) in which `a` and
`b` are both already registered and `a` does not already follow `b`,
`follow_user a b` followed by `unfollow_user a b` restores both the forward
and the reverse adjacency mappings exactly. -/
theorem spec_C2 (g : SocialGraph) (a b : Int) (hg : Inv g)
    (ha : a ∈ dkeys g.adjacency_list) (hb : b ∈ dkeys g.adjacency_list)
    (hnf : b ∉ lookupD g.adjacency_list a) :
    unfollow_user (follow_user g a b) a b = some g := by
  have hnr : a ∉ lookupD g.reverse_adjacency_list b :=
    fun hh => hnf ((hg.dual a b).mpr hh)
  have hbr : b ∈ dkeys g.reverse_adjacency_list := hg.keysEq ▸ hb
  rw [follow_user_of_mem g a b ha hb, if_neg hnf]
  have hka : a ∈ dkeys (dset g.adjacency_list a
      (lookupD g.adjacency_list a ++ [b])) := by
    rw [dkeys_dset_of_mem _ _ _ ha]
    exact ha
  have hla : lookupD (dset g.adjacency_list a
      (lookupD g.adjacency_list a ++ [b])) a =
      lookupD g.adjacency_list a ++ [b] := lookupD_dset_self _ _ _
  have hlb : lookupD (dset g.reverse_adjacency_list b
      (lookupD g.reverse_adjacency_list b ++ [a])) b =
      lookupD g.reverse_adjacency_list b ++ [a] := lookupD_dset_self _ _ _
  unfold unfollow_user
  rw [show (⟨dset g.adjacency_list a (lookupD g.adjacency_list a ++ [b]),
        dset g.reverse_adjacency_list b
          (lookupD g.reverse_adjacency_list b ++ [a])⟩ :
      SocialGraph).adjacency_list =
      dset g.adjacency_list a (lookupD g.adjacency_list a ++ [b]) from rfl,
    show (⟨dset g.adjacency_list a (lookupD g.adjacency_list a ++ [b]),
        dset g.reverse_adjacency_list b
          (lookupD g.reverse_adjacency_list b ++ [a])⟩ :
      SocialGraph).reverse_adjacency_list =
      dset g.reverse_adjacency_list b
        (lookupD g.reverse_adjacency_list b ++ [a]) from rfl,
    hla, hlb, if_pos hka, if_pos (by simp : b ∈ lookupD g.adjacency_list a ++ [b]),
    pyRemove_append_singleton b _ hnf, pyRemove_append_singleton a _ hnr]
  show some ⟨dset (dset g.adjacency_list a _) a (lookupD g.adjacency_list a),
    dset (dset g.reverse_adjacency_list b _) b
      (lookupD g.reverse_adjacency_list b)⟩ = some g
  rw [dset_dset_self, dset_dset_self, dset_lookupD_self _ _ ha,
    dset_lookupD_self _ _ hbr]

/-- Witness for the amended C2 on the graph with registered users 1, 2 and
no edges. -/
theorem spec_C2_witness :
    unfollow_user (follow_user (add_user (add_user emptyGraph 1) 2) 1 2) 1 2 =
      some (add_user (add_user emptyGraph 1) 2) :=
  spec_C2 (add_user (add_user emptyGraph 1) 2) 1 2
    (inv_add_user _ 2 (inv_add_user _ 1 inv_empty))
    (by decide) (by decide) (by decide)

/-! ### Stable descending sort on (id, score) pairs

Python `list.sort(key=lambda x: x[1], reverse=True)` and
`sorted(..., key=..., reverse=True)` are stable sorts by descending second
component; `insDesc`/`sortPairsDesc` implement exactly that order as an
insertion sort (an earlier element is placed before a later one whenever its
score is at least as large). -/

def insDesc {β : Type} [LinearOrder β] (x : Int × β) :
    List (Int × β) → List (Int × β)
  | [] => [x]
  | y :: ys => if y.2 ≤ x.2 then x :: y :: ys else y :: insDesc x ys

def sortPairsDesc {β : Type} [LinearOrder β] : List (Int × β) → List (Int × β)
  | [] => []
  | x :: xs => insDesc x (sortPairsDesc xs)

theorem insDesc_perm {β : Type} [LinearOrder β] (x : Int × β)
    (l : List (Int × β)) : List.Perm (insDesc x l) (x :: l) := by
  induction l with
  | nil => exact List.Perm.refl _
  | cons y ys ih =>
    by_cases h : y.2 ≤ x.2
    · rw [show insDesc x (y :: ys) = x :: y :: ys from by simp [insDesc, h]]
    · rw [show insDesc x (y :: ys) = y :: insDesc x ys from by simp [insDesc, h]]
      exact (ih.cons y).trans (List.Perm.swap x y ys)

theorem sortPairsDesc_perm {β : Type} [LinearOrder β] (l : List (Int × β)) :
    List.Perm (sortPairsDesc l) l := by
  induction l with
  | nil => exact List.Perm.refl _
  | cons x xs ih => exact (insDesc_perm x (sortPairsDesc xs)).trans (ih.cons x)

theorem mem_sortPairsDesc {β : Type} [LinearOrder β] (l : List (Int × β))
    (p : Int × β) : p ∈ sortPairsDesc l ↔ p ∈ l :=
  (sortPairsDesc_perm l).mem_iff

theorem insDesc_sorted {β : Type} [LinearOrder β] (x : Int × β)
    (l : List (Int × β)) (hl : List.Pairwise (fun u v => v.2 ≤ u.2) l) :
    List.Pairwise (fun u v => v.2 ≤ u.2) (insDesc x l) := by
  induction l with
  | nil => simp [insDesc]
  | cons y ys ih =>
    rcases List.pairwise_cons.mp hl with ⟨hy, hys⟩
    by_cases h : y.2 ≤ x.2
    · rw [show insDesc x (y :: ys) = x :: y :: ys from by simp [insDesc, h]]
      refine List.pairwise_cons.mpr ⟨?_, hl⟩
      intro z hz
      rcases List.mem_cons.mp hz with rfl | hz
      · exact h
      · exact le_trans (hy z hz) h
    · rw [show insDesc x (y :: ys) = y :: insDesc x ys from by simp [insDesc, h]]
      refine List.pairwise_cons.mpr ⟨?_, ih hys⟩
      intro z hz
      have h2 := (insDesc_perm x ys).mem_iff.mp hz
      rcases List.mem_cons.mp h2 with h2 | h2
      · rw [h2]
        exact le_of_lt (lt_of_not_le h)
      · exact hy z h2

theorem sortPairsDesc_sorted {β : Type} [LinearOrder β] (l : List (Int × β)) :
    List.Pairwise (fun u v => v.2 ≤ u.2) (sortPairsDesc l) := by
  induction l with
  | nil => simp [sortPairsDesc]
  | cons x xs ih => exact insDesc_sorted x (sortPairsDesc xs) ih

theorem insDesc_front {β : Type} [LinearOrder β] (x : Int × β)
    (l : List (Int × β)) (h : ∀ z ∈ l, z.2 ≤ x.2) : insDesc x l = x :: l := by
  cases l with
  | nil => rfl
  | cons y ys => simp [insDesc, h y (List.mem_cons_self y ys)]

theorem filter_insDesc_pos {β : Type} [LinearOrder β] (q : Int × β → Bool)
    (x : Int × β) (l : List (Int × β)) (hq : q x = true)
    (hl : List.Pairwise (fun u v => v.2 ≤ u.2) l) :
    (insDesc x l).filter q = insDesc x (l.filter q) := by
  induction l with
  | nil => simp [insDesc, List.filter, hq]
  | cons y ys ih =>
    rcases List.pairwise_cons.mp hl with ⟨hy, hys⟩
    by_cases h : y.2 ≤ x.2
    · rw [show insDesc x (y :: ys) = x :: y :: ys from by simp [insDesc, h]]
      rw [List.filter_cons_of_pos hq]
      rw [insDesc_front x ((y :: ys).filter q)]
      intro z hz
      have hz2 : z ∈ y :: ys := List.mem_of_mem_filter hz
      rcases List.mem_cons.mp hz2 with rfl | hz2
      · exact h
      · exact le_trans (hy z hz2) h
    · rw [show insDesc x (y :: ys) = y :: insDesc x ys from by simp [insDesc, h]]
      by_cases hqy : q y = true
      · rw [List.filter_cons_of_pos hqy, List.filter_cons_of_pos hqy, ih hys]
        rw [show insDesc x (y :: ys.filter q) = y :: insDesc x (ys.filter q)
          from by simp [insDesc, h]]
      · rw [List.filter_cons_of_neg (by simpa using hqy),
          List.filter_cons_of_neg (by simpa using hqy), ih hys]

theorem filter_insDesc_neg {β : Type} [LinearOrder β] (q : Int × β → Bool)
    (x : Int × β) (l : List (Int × β)) (hq : ¬ q x = true) :
    (insDesc x l).filter q = l.filter q := by
  induction l with
  | nil => simp [insDesc, List.filter, hq]
  | cons y ys ih =>
    by_cases h : y.2 ≤ x.2
    · rw [show insDesc x (y :: ys) = x :: y :: ys from by simp [insDesc, h]]
      rw [List.filter_cons_of_neg (by simpa using hq)]
    · rw [show insDesc x (y :: ys) = y :: insDesc x ys from by simp [insDesc, h]]
      by_cases hqy : q y = true
      · rw [List.filter_cons_of_pos hqy, List.filter_cons_of_pos hqy, ih]
      · rw [List.filter_cons_of_neg (by simpa using hqy),
          List.filter_cons_of_neg (by simpa using hqy), ih]

theorem sortPairsDesc_filter {β : Type} [LinearOrder β] (q : Int × β → Bool)
    (l : List (Int × β)) :
    sortPairsDesc (l.filter q) = (sortPairsDesc l).filter q := by
  induction l with
  | nil => rfl
  | cons x xs ih =>
    by_cases hq : q x = true
    · rw [List.filter_cons_of_pos hq]
      rw [show sortPairsDesc (x :: xs.filter q) =
        insDesc x (sortPairsDesc (xs.filter q)) from rfl]
      rw [ih, show sortPairsDesc (x :: xs) = insDesc x (sortPairsDesc xs) from rfl,
        filter_insDesc_pos q x (sortPairsDesc xs) hq (sortPairsDesc_sorted xs)]
    · rw [List.filter_cons_of_neg (by simpa using hq), ih,
        show sortPairsDesc (x :: xs) = insDesc x (sortPairsDesc xs) from rfl,
        filter_insDesc_neg q x (sortPairsDesc xs) hq]

theorem sorted_filter_eq_takeWhile {β : Type} [LinearOrder β] (m : β)
    (l : List (Int × β)) (hl : List.Pairwise (fun u v => v.2 ≤ u.2) l) :
    l.filter (fun p => decide (m ≤ p.2)) =
      l.takeWhile (fun p => decide (m ≤ p.2)) := by
  induction l with
  | nil => rfl
  | cons x xs ih =>
    rcases List.pairwise_cons.mp hl with ⟨hx, hxs⟩
    by_cases h : m ≤ x.2
    · rw [List.filter_cons_of_pos (by simpa using h),
        List.takeWhile_cons_of_pos (by simpa using h), ih hxs]
    · rw [List.filter_cons_of_neg (by simpa using h),
        List.takeWhile_cons_of_neg (by simpa using h)]
      apply List.filter_eq_nil_iff.mpr
      intro z hz
      simp only [decide_eq_true_eq]
      intro hm
      exact h (le_trans hm (hx z hz))

theorem mem_take_takeWhile {β : Type} (q : β → Bool) (n : Nat) (l : List β)
    (x : β) (h : x ∈ (l.takeWhile q).take n) : x ∈ l.take n := by
  induction l generalizing n with
  | nil => simp [List.takeWhile] at h
  | cons y ys ih =>
    by_cases hq : q y = true
    · rw [List.takeWhile_cons_of_pos hq] at h
      cases n with
      | zero => simp at h
      | succ n =>
        rw [List.take_succ_cons] at h
        rw [List.take_succ_cons]
        rcases List.mem_cons.mp h with rfl | h
        · exact List.mem_cons_self _ _
        · exact List.mem_cons_of_mem y (ih n h)
    · rw [List.takeWhile_cons_of_neg hq] at h
      simp at h

/-! ### suggest_users_to_follow (C4) -/

/-- `defaultdict(int)`-style increment: bump the count of `p`, inserting a
new entry (count 1) at the end on first use, as a Python dict does. -/
def bump : List (Int × Nat) → Int → List (Int × Nat)
  | [], p => [(p, 1)]
  | (k, c) :: rest, p =>
      if k = p then (k, c + 1) :: rest else (k, c) :: bump rest p

/-- `SocialGraph.suggest_users_to_follow`.  Python iterates over
`set(self.get_following(user_id))`; the set is modelled as the deduplicated
following list (same membership; Python set iteration order is
unspecified).  The float literal `0.1` is modelled as the rational 1/10. -/
def suggest_users_to_follow (g : SocialGraph) (user_id : Int) (limit : Nat) :
    List (Int × ℚ) :=
  let following := (get_following g user_id).dedup
  let suggestions : List (Int × Nat) :=
    following.foldl (fun acc f =>
      (get_following g f).foldl (fun acc2 p =>
        if p ≠ user_id ∧ p ∉ following then bump acc2 p else acc2) acc) []
  let scored : List (Int × ℚ) := suggestions.map (fun kc =>
    (kc.1, (kc.2 : ℚ) + ((get_followers g kc.1).length : ℚ) * (1 / 10)))
  (sortPairsDesc scored).take limit

theorem bump_fst_mem (acc : List (Int × Nat)) (p k : Int)
    (h : k ∈ (bump acc p).map Prod.fst) :
    k ∈ acc.map Prod.fst ∨ k = p := by
  induction acc with
  | nil =>
    simp [bump] at h
    exact Or.inr h
  | cons kc rest ih =>
    rcases kc with ⟨k0, c0⟩
    by_cases hk : k0 = p
    · rw [show bump ((k0, c0) :: rest) p = (k0, c0 + 1) :: rest from by
        simp [bump, hk]] at h
      simp only [List.map_cons, List.mem_cons] at h ⊢
      rcases h with h | h
      · exact Or.inl (Or.inl h)
      · exact Or.inl (Or.inr h)
    · rw [show bump ((k0, c0) :: rest) p = (k0, c0) :: bump rest p from by
        simp [bump, hk]] at h
      simp only [List.map_cons, List.mem_cons] at h ⊢
      rcases h with h | h
      · exact Or.inl (Or.inl h)
      · rcases ih h with h | h
        · exact Or.inl (Or.inr h)
        · exact Or.inr h

theorem suggestions_fold_good (g : SocialGraph) (u : Int)
    (following : List Int) :
    ∀ (outer : List Int) (acc : List (Int × Nat)),
      (∀ k ∈ acc.map Prod.fst, k ≠ u ∧ k ∉ following) →
      ∀ k ∈ (outer.foldl (fun a f => (get_following g f).foldl
          (fun acc2 p => if p ≠ u ∧ p ∉ following then bump acc2 p else acc2) a)
        acc).map Prod.fst, k ≠ u ∧ k ∉ following := by
  have inner : ∀ (l : List Int) (acc : List (Int × Nat)),
      (∀ k ∈ acc.map Prod.fst, k ≠ u ∧ k ∉ following) →
      ∀ k ∈ (l.foldl (fun acc2 p =>
          if p ≠ u ∧ p ∉ following then bump acc2 p else acc2) acc).map Prod.fst,
        k ≠ u ∧ k ∉ following := by
    intro l
    induction l with
    | nil =>
      intro acc hacc
      exact hacc
    | cons p ps ih =>
      intro acc hacc
      rw [List.foldl_cons]
      apply ih
      show ∀ k ∈ (if p ≠ u ∧ p ∉ following then bump acc p else acc).map Prod.fst,
        k ≠ u ∧ k ∉ following
      by_cases hc : p ≠ u ∧ p ∉ following
      · rw [if_pos hc]
        intro k hk
        rcases bump_fst_mem acc p k hk with h | h
        · exact hacc k h
        · rw [h]
          exact hc
      · rw [if_neg hc]
        exact hacc
  intro outer
  induction outer with
  | nil =>
    intro acc hacc
    exact hacc
  | cons f fs ih =>
    intro acc hacc
    rw [List.foldl_cons]
    apply ih
    show ∀ k ∈ ((get_following g f).foldl (fun acc2 p =>
        if p ≠ u ∧ p ∉ following then bump acc2 p else acc2) acc).map Prod.fst,
      k ≠ u ∧ k ∉ following
    exact inner (get_following g f) acc hacc

/-- C4: `suggest_users_to_follow(id, limit)` returns at most `limit` pairs,
and no returned pair has as its first component the querying id itself or
any id already in `get_following(id)`. -/
theorem spec_C4 (g : SocialGraph) (u : Int) (limit : Nat) :
    (suggest_users_to_follow g u limit).length ≤ limit ∧
    ∀ p ∈ suggest_users_to_follow g u limit,
      p.1 ≠ u ∧ p.1 ∉ get_following g u := by
  constructor
  · unfold suggest_users_to_follow
    rw [List.length_take]
    exact min_le_left _ _
  · intro p hp
    unfold suggest_users_to_follow at hp
    have hp2 := List.take_subset _ _ hp
    have hp3 := (mem_sortPairsDesc _ p).mp hp2
    rcases List.mem_map.mp hp3 with ⟨kc, hkc, hpe⟩
    have hk : kc.1 ∈ (((get_following g u).dedup).foldl
        (fun a f => (get_following g f).foldl
          (fun acc2 p2 =>
            if p2 ≠ u ∧ p2 ∉ (get_following g u).dedup then bump acc2 p2
            else acc2) a) []).map Prod.fst :=
      List.mem_map.mpr ⟨kc, hkc, rfl⟩
    have hgood := suggestions_fold_good g u ((get_following g u).dedup)
      ((get_following g u).dedup) [] (by simp) kc.1 hk
    rw [← hpe]
    exact ⟨hgood.1, fun hm => hgood.2 (List.mem_dedup.mpr hm)⟩

/-! ### get_influencers (C7) -/

/-- `SocialGraph.get_influencers`: iterate the reverse mapping in insertion
order collecting `(user_id, follower_count)` for counts at least
`min_followers`, sort descending by count (stable), truncate to `limit`. -/
def get_influencers (g : SocialGraph) (min_followers limit : Nat) :
    List (Int × Nat) :=
  let influencers := (g.reverse_adjacency_list.map
    (fun kv => (kv.1, kv.2.length))).filter
      (fun p => decide (min_followers ≤ p.2))
  (sortPairsDesc influencers).take limit

theorem lookupD_of_mem_nodup (d : List (Int × List Int)) (kv : Int × List Int)
    (hn : (dkeys d).Nodup) (h : kv ∈ d) : lookupD d kv.1 = kv.2 := by
  induction d with
  | nil => simp at h
  | cons kv2 rest ih =>
    simp only [dkeys, List.map_cons] at hn
    rcases List.pairwise_cons.mp hn with ⟨hk, hrest⟩
    rcases List.mem_cons.mp h with h | h
    · rw [h]
      show (if kv2.1 = kv2.1 then kv2.2 else lookupD rest kv2.1) = kv2.2
      rw [if_pos rfl]
    · have hne : ¬ kv2.1 = kv.1 := hk kv.1 (List.mem_map.mpr ⟨kv, h, rfl⟩)
      show (if kv2.1 = kv.1 then kv2.2 else lookupD rest kv.1) = kv.2
      rw [if_neg hne]
      exact ih hrest h

theorem mem_counts_iff (g : SocialGraph)
    (hn : (dkeys g.reverse_adjacency_list).Nodup) (p : Int × Nat) :
    p ∈ g.reverse_adjacency_list.map (fun kv => (kv.1, kv.2.length)) ↔
      (p.1 ∈ dkeys g.reverse_adjacency_list ∧
        p.2 = (get_followers g p.1).length) := by
  constructor
  · intro h
    rcases List.mem_map.mp h with ⟨kv, hkv, hpe⟩
    constructor
    · rw [← hpe]
      exact List.mem_map.mpr ⟨kv, hkv, rfl⟩
    · rw [← hpe]
      show kv.2.length = (get_followers g kv.1).length
      unfold get_followers
      rw [lookupD_of_mem_nodup _ kv hn hkv]
  · rintro ⟨h1, h2⟩
    rcases List.mem_map.mp h1 with ⟨kv, hkv, hpe⟩
    refine List.mem_map.mpr ⟨kv, hkv, ?_⟩
    have : lookupD g.reverse_adjacency_list kv.1 = kv.2 :=
      lookupD_of_mem_nodup _ kv hn hkv
    rcases p with ⟨p1, p2⟩
    simp only at hpe h2 ⊢
    unfold get_followers at h2
    rw [← hpe] at h2 ⊢
    rw [this] at h2
    rw [h2]

/-- C7: `get_influencers(minFollowers, limit)` is the descending-by-count
stable sort of the pairs `(user, followerCount)` over exactly the
registered users with `followerCount ≥ minFollowers`, truncated to `limit`;
with `minFollowers = 0` the result is the `limit` registered users with the
highest follower counts, and for any threshold `k` the result is a subset of
the `minFollowers = 0` result. -/
theorem spec_C7 (g : SocialGraph)
    (hn : (dkeys g.reverse_adjacency_list).Nodup) (minF limit : Nat) :
    (get_influencers g minF limit =
      (sortPairsDesc ((g.reverse_adjacency_list.map
          (fun kv => (kv.1, kv.2.length))).filter
        (fun p => decide (minF ≤ p.2)))).take limit) ∧
    (∀ p : Int × Nat,
      p ∈ sortPairsDesc ((g.reverse_adjacency_list.map
          (fun kv => (kv.1, kv.2.length))).filter
        (fun p => decide (minF ≤ p.2))) ↔
      (p.1 ∈ dkeys g.reverse_adjacency_list ∧
        p.2 = (get_followers g p.1).length ∧ minF ≤ p.2)) ∧
    List.Pairwise (fun u v => v.2 ≤ u.2)
      (sortPairsDesc ((g.reverse_adjacency_list.map
          (fun kv => (kv.1, kv.2.length))).filter
        (fun p => decide (minF ≤ p.2)))) ∧
    (∀ p ∈ get_influencers g minF limit, p ∈ get_influencers g 0 limit) ∧
    (∀ p ∈ get_influencers g 0 limit, ∀ v ∈ dkeys g.reverse_adjacency_list,
      v ∉ (get_influencers g 0 limit).map Prod.fst →
      (get_followers g v).length ≤ p.2) := by
  have hfull0 : (g.reverse_adjacency_list.map
      (fun kv => (kv.1, kv.2.length))).filter
        (fun p => decide ((0 : Nat) ≤ p.2)) =
      g.reverse_adjacency_list.map (fun kv => (kv.1, kv.2.length)) := by
    apply List.filter_eq_self.mpr
    intro p _
    simp
  refine ⟨rfl, ?_, sortPairsDesc_sorted _, ?_, ?_⟩
  · intro p
    rw [mem_sortPairsDesc, List.mem_filter, mem_counts_iff g hn p]
    constructor
    · rintro ⟨⟨h1, h2⟩, h3⟩
      exact ⟨h1, h2, by simpa using h3⟩
    · rintro ⟨h1, h2, h3⟩
      exact ⟨⟨h1, h2⟩, by simpa using h3⟩
  · intro p hp
    simp only [get_influencers] at hp ⊢
    rw [hfull0]
    rw [sortPairsDesc_filter] at hp
    rw [sorted_filter_eq_takeWhile minF _ (sortPairsDesc_sorted _)] at hp
    exact mem_take_takeWhile _ limit _ p hp
  · intro p hp v hv hvn
    simp only [get_influencers] at hp hvn
    rw [hfull0] at hp hvn
    set full := sortPairsDesc (g.reverse_adjacency_list.map
      (fun kv => (kv.1, kv.2.length))) with hfull
    have hvmem : (v, (get_followers g v).length) ∈ full := by
      rw [hfull, mem_sortPairsDesc, mem_counts_iff g hn]
      exact ⟨hv, rfl⟩
    have hsplit : full = full.take limit ++ full.drop limit :=
      (List.take_append_drop limit full).symm
    have hsort : List.Pairwise (fun u2 v2 => v2.2 ≤ u2.2) full :=
      sortPairsDesc_sorted _
    rw [hsplit] at hsort
    have hcross := (List.pairwise_append.mp hsort).2.2
    have hvdrop : (v, (get_followers g v).length) ∈ full.drop limit := by
      rcases (List.mem_append.mp (hsplit ▸ hvmem)) with h | h
      · exact absurd (List.mem_map.mpr ⟨_, h, rfl⟩) hvn
      · exact h
    exact hcross p hp _ hvdrop

/-- Witness for C4 on a small concrete graph: 1 follows 2, 2 follows 3. -/
theorem spec_C4_witness :
    (suggest_users_to_follow (follow_user (follow_user emptyGraph 1 2) 2 3)
        1 5).length ≤ 5 ∧
    ∀ p ∈ suggest_users_to_follow (follow_user (follow_user emptyGraph 1 2) 2 3)
        1 5, p.1 ≠ 1 ∧
      p.1 ∉ get_following (follow_user (follow_user emptyGraph 1 2) 2 3) 1 :=
  spec_C4 (follow_user (follow_user emptyGraph 1 2) 2 3) 1 5

/-- Witness for C7 on the graph where 1 and 3 follow 2. -/
theorem spec_C7_witness :
    (get_influencers (follow_user (follow_user emptyGraph 1 2) 3 2) 1 10 =
      (sortPairsDesc (((follow_user (follow_user emptyGraph 1 2)
          3 2).reverse_adjacency_list.map
            (fun kv => (kv.1, kv.2.length))).filter
        (fun p => decide (1 ≤ p.2)))).take 10) ∧
    (∀ p : Int × Nat,
      p ∈ sortPairsDesc (((follow_user (follow_user emptyGraph 1 2)
          3 2).reverse_adjacency_list.map
            (fun kv => (kv.1, kv.2.length))).filter
        (fun p => decide (1 ≤ p.2))) ↔
      (p.1 ∈ dkeys (follow_user (follow_user emptyGraph 1 2)
          3 2).reverse_adjacency_list ∧
        p.2 = (get_followers (follow_user (follow_user emptyGraph 1 2) 3 2)
          p.1).length ∧ 1 ≤ p.2)) ∧
    List.Pairwise (fun u v => v.2 ≤ u.2)
      (sortPairsDesc (((follow_user (follow_user emptyGraph 1 2)
          3 2).reverse_adjacency_list.map
            (fun kv => (kv.1, kv.2.length))).filter
        (fun p => decide (1 ≤ p.2)))) ∧
    (∀ p ∈ get_influencers (follow_user (follow_user emptyGraph 1 2) 3 2) 1 10,
      p ∈ get_influencers (follow_user (follow_user emptyGraph 1 2) 3 2) 0 10) ∧
    (∀ p ∈ get_influencers (follow_user (follow_user emptyGraph 1 2) 3 2) 0 10,
      ∀ v ∈ dkeys (follow_user (follow_user emptyGraph 1 2)
          3 2).reverse_adjacency_list,
        v ∉ (get_influencers (follow_user (follow_user emptyGraph 1 2)
          3 2) 0 10).map Prod.fst →
        (get_followers (follow_user (follow_user emptyGraph 1 2) 3 2)
          v).length ≤ p.2) :=
  spec_C7 (follow_user (follow_user emptyGraph 1 2) 3 2) (by decide) 1 10

/-! ### get_network_stats (C8) -/

/-- Round-half-to-even on an exact rational, the tie rule of Python
`round`. -/
def roundHalfEven (q : ℚ) : ℤ :=
  if q - ⌊q⌋ < 1 / 2 then ⌊q⌋
  else if 1 / 2 < q - ⌊q⌋ then ⌊q⌋ + 1
  else if Even ⌊q⌋ then ⌊q⌋ else ⌊q⌋ + 1

/-- Python `round(x, 2)` on an exact rational. -/
def round2 (q : ℚ) : ℚ := ((roundHalfEven (q * 100) : ℤ) : ℚ) / 100

/-- The dict returned by `SocialGraph.get_network_stats`.  The float
division and `round(_, 2)` of the source are modelled on exact rationals. -/
structure NetworkStats where
  total_users : Nat
  total_connections : Nat
  average_followers : ℚ
deriving DecidableEq, Repr

/-- `SocialGraph.get_network_stats`. -/
def get_network_stats (g : SocialGraph) : NetworkStats :=
  let total_users : Nat := g.adjacency_list.length
  let total_connections : Nat :=
    (g.adjacency_list.map (fun kv => kv.2.length)).sum
  let avg_followers : ℚ :=
    if 0 < total_users then (total_connections : ℚ) / (total_users : ℚ) else 0
  ⟨total_users, total_connections, round2 avg_followers⟩

theorem map_lookupD_dkeys (d : List (Int × List Int))
    (hn : (dkeys d).Nodup) :
    (dkeys d).map (fun u => (lookupD d u).length) =
      d.map (fun kv => kv.2.length) := by
  induction d with
  | nil => rfl
  | cons kv rest ih =>
    simp only [dkeys, List.map_cons] at hn ⊢
    rcases List.pairwise_cons.mp hn with ⟨hk, hrest⟩
    congr 1
    · show (if kv.1 = kv.1 then kv.2 else lookupD rest kv.1).length = kv.2.length
      rw [if_pos rfl]
    · rw [show (fun u => (lookupD (kv :: rest) u).length) =
          fun u => ((if kv.1 = u then kv.2 else lookupD rest u)).length from rfl]
      rw [← ih hrest]
      apply List.map_congr_left
      intro u hu
      rw [if_neg (hk u hu)]

theorem round2_zero : round2 0 = 0 := by
  have h1 : roundHalfEven (0 * 100) = 0 := by
    norm_num [roundHalfEven]
  rw [round2, h1]
  norm_num

/-- C8: `get_network_stats` returns the number of registered users, the sum
over all registered users `u` of `len(get_following(u))`, and the average
`total_connections / total_users` rounded to two decimal places (0 with no
users). -/
theorem spec_C8 (g : SocialGraph) (hn : (dkeys g.adjacency_list).Nodup) :
    (get_network_stats g).total_users = (dkeys g.adjacency_list).length ∧
    (get_network_stats g).total_connections =
      ((dkeys g.adjacency_list).map (fun u => (get_following g u).length)).sum ∧
    (0 < (get_network_stats g).total_users →
      (get_network_stats g).average_followers =
        round2 (((get_network_stats g).total_connections : ℚ) /
          ((get_network_stats g).total_users : ℚ))) ∧
    ((get_network_stats g).total_users = 0 →
      (get_network_stats g).average_followers = 0) := by
  refine ⟨?_, ?_, ?_, ?_⟩
  · show g.adjacency_list.length = (dkeys g.adjacency_list).length
    rw [dkeys, List.length_map]
  · show (g.adjacency_list.map (fun kv => kv.2.length)).sum =
      ((dkeys g.adjacency_list).map (fun u => (get_following g u).length)).sum
    rw [show (fun u => (get_following g u).length) =
      (fun u => (lookupD g.adjacency_list u).length) from rfl]
    rw [map_lookupD_dkeys g.adjacency_list hn]
  · intro h
    have h2 : 0 < g.adjacency_list.length := h
    show round2 (if 0 < g.adjacency_list.length then
        (((g.adjacency_list.map (fun kv => kv.2.length)).sum : Nat) : ℚ) /
          ((g.adjacency_list.length : Nat) : ℚ) else 0) =
      round2 (((get_network_stats g).total_connections : ℚ) /
        ((get_network_stats g).total_users : ℚ))
    rw [if_pos h2]
    rfl
  · intro h
    have h2 : ¬ 0 < g.adjacency_list.length := by
      intro hc
      rw [show (get_network_stats g).total_users = g.adjacency_list.length
        from rfl] at h
      omega
    show round2 (if 0 < g.adjacency_list.length then
        (((g.adjacency_list.map (fun kv => kv.2.length)).sum : Nat) : ℚ) /
          ((g.adjacency_list.length : Nat) : ℚ) else 0) = 0
    rw [if_neg h2]
    exact round2_zero

/-- Witness for C8 on the graph where 1 follows 2. -/
theorem spec_C8_witness :
    (get_network_stats (follow_user emptyGraph 1 2)).total_users =
      (dkeys (follow_user emptyGraph 1 2).adjacency_list).length ∧
    (get_network_stats (follow_user emptyGraph 1 2)).total_connections =
      ((dkeys (follow_user emptyGraph 1 2).adjacency_list).map
        (fun u => (get_following (follow_user emptyGraph 1 2) u).length)).sum ∧
    (0 < (get_network_stats (follow_user emptyGraph 1 2)).total_users →
      (get_network_stats (follow_user emptyGraph 1 2)).average_followers =
        round2 (((get_network_stats (follow_user emptyGraph 1 2)).total_connections : ℚ) /
          ((get_network_stats (follow_user emptyGraph 1 2)).total_users : ℚ))) ∧
    ((get_network_stats (follow_user emptyGraph 1 2)).total_users = 0 →
      (get_network_stats (follow_user emptyGraph 1 2)).average_followers = 0) :=
  spec_C8 (follow_user emptyGraph 1 2) (by decide)

/-! ### BFS loops (shortest_path_bfs, get_community_size)

Both Python loops run `while queue:` with a `visited` set, so every node is
expanded at most once and the loops terminate on every finite graph.  The
loops are embedded with an explicit fuel argument (`none` = fuel ran out);
`spFuel`/`csFuel` are fuel bounds derived from the every-node-expanded-once
argument, proved sufficient below, and the top-level functions run the loop
with that fuel. -/

def totalAdjLen (g : SocialGraph) : Nat :=
  (g.adjacency_list.map (fun kv => kv.2.length)).sum

def totalRevLen (g : SocialGraph) : Nat :=
  (g.reverse_adjacency_list.map (fun kv => kv.2.length)).sum

def spFuel (g : SocialGraph) : Nat := 2 + totalAdjLen g

def csFuel (g : SocialGraph) : Nat := 2 + totalAdjLen g + totalRevLen g

/-- The `while queue:` loop of `shortest_path_bfs`.  A queue element is
`(current_user, path)`; `deque.popleft` takes the head, `append` pushes at
the back.  Scanning the neighbors returns `path + [neighbor]` as soon as the
end user is seen, otherwise enqueues the not-yet-visited neighbors. -/
def spLoop (g : SocialGraph) (e : Int) :
    Nat → List Int → List (Int × List Int) → Option (List Int)
  | 0, _, _ => none
  | _ + 1, _, [] => some []
  | fuel + 1, visited, (c, p) :: rest =>
    if c ∈ visited then spLoop g e fuel visited rest
    else if e ∈ lookupD g.adjacency_list c then some (p ++ [e])
    else spLoop g e fuel (c :: visited)
      (rest ++ ((lookupD g.adjacency_list c).filter
        (fun n => decide (n ∉ c :: visited))).map (fun n => (n, p ++ [n])))

/-- `SocialGraph.shortest_path_bfs`. -/
def shortest_path_bfs (g : SocialGraph) (start_user end_user : Int) :
    List Int :=
  if start_user ∉ dkeys g.adjacency_list ∨ end_user ∉ dkeys g.adjacency_list
  then []
  else if start_user = end_user then [start_user]
  else (spLoop g end_user (spFuel g) [] [(start_user, [start_user])]).getD []

/-- The `while queue:` loop of `get_community_size`: a queue element is
`(current_user, depth)`; entries already visited or deeper than `max_depth`
are skipped, otherwise the node is marked visited and the not-yet-visited
forward then reverse neighbors are enqueued one level deeper. -/
def csLoop (g : SocialGraph) (maxd : Nat) :
    Nat → List Int → List (Int × Nat) → Option (List Int)
  | 0, _, _ => none
  | _ + 1, visited, [] => some visited
  | fuel + 1, visited, (c, d) :: rest =>
    if c ∈ visited ∨ maxd < d then csLoop g maxd fuel visited rest
    else csLoop g maxd fuel (c :: visited)
      (rest ++ ((lookupD g.adjacency_list c).filter
          (fun n => decide (n ∉ c :: visited))).map (fun n => (n, d + 1))
        ++ ((lookupD g.reverse_adjacency_list c).filter
          (fun n => decide (n ∉ c :: visited))).map (fun n => (n, d + 1)))

/-- `SocialGraph.get_community_size`. -/
def get_community_size (g : SocialGraph) (user_id : Int) (max_depth : Nat) :
    Nat :=
  if user_id ∉ dkeys g.adjacency_list then 0
  else ((csLoop g max_depth (csFuel g) [] [(user_id, 0)]).getD []).length

/-! ### Fuel bounds: each node is expanded at most once -/

/-- Total length of the values of the entries whose key is unvisited: the
work still chargeable to the loop. -/
def unvisSum (d : List (Int × List Int)) (visited : List Int) : Nat :=
  ((d.filter (fun kv => decide (kv.1 ∉ visited))).map
    (fun kv => kv.2.length)).sum

theorem unvisSum_nil_visited (d : List (Int × List Int)) :
    unvisSum d [] = (d.map (fun kv => kv.2.length)).sum := by
  unfold unvisSum
  rw [List.filter_eq_self.mpr]
  intro kv _
  simp

theorem unvisSum_mono (d : List (Int × List Int)) (c : Int)
    (visited : List Int) : unvisSum d (c :: visited) ≤ unvisSum d visited := by
  induction d with
  | nil => exact le_refl _
  | cons kv rest ih =>
    unfold unvisSum at ih ⊢
    by_cases h2 : kv.1 ∈ c :: visited
    · have e1 : List.filter (fun x => decide (x.1 ∉ c :: visited)) (kv :: rest) =
          List.filter (fun x => decide (x.1 ∉ c :: visited)) rest :=
        List.filter_cons_of_neg
          (by simp only [decide_eq_true_eq]; exact fun hh => hh h2)
      rw [e1]
      by_cases h : kv.1 ∈ visited
      · have e2 : List.filter (fun x => decide (x.1 ∉ visited)) (kv :: rest) =
            List.filter (fun x => decide (x.1 ∉ visited)) rest :=
          List.filter_cons_of_neg
            (by simp only [decide_eq_true_eq]; exact fun hh => hh h)
        rw [e2]
        exact ih
      · have e2 : List.filter (fun x => decide (x.1 ∉ visited)) (kv :: rest) =
            kv :: List.filter (fun x => decide (x.1 ∉ visited)) rest :=
          List.filter_cons_of_pos (by simp only [decide_eq_true_eq]; exact h)
        rw [e2]
        simp only [List.map_cons, List.sum_cons]
        omega
    · have h : kv.1 ∉ visited := fun hh => h2 (List.mem_cons_of_mem c hh)
      have e1 : List.filter (fun x => decide (x.1 ∉ c :: visited)) (kv :: rest) =
          kv :: List.filter (fun x => decide (x.1 ∉ c :: visited)) rest :=
        List.filter_cons_of_pos (by simp only [decide_eq_true_eq]; exact h2)
      have e2 : List.filter (fun x => decide (x.1 ∉ visited)) (kv :: rest) =
          kv :: List.filter (fun x => decide (x.1 ∉ visited)) rest :=
        List.filter_cons_of_pos (by simp only [decide_eq_true_eq]; exact h)
      rw [e1, e2]
      simp only [List.map_cons, List.sum_cons]
      omega

theorem unvisSum_expand (d : List (Int × List Int)) (c : Int)
    (visited : List Int) (hc : c ∉ visited) :
    unvisSum d (c :: visited) + (lookupD d c).length ≤ unvisSum d visited := by
  induction d with
  | nil => simp [unvisSum, lookupD]
  | cons kv rest ih =>
    unfold unvisSum at ih ⊢
    by_cases hk : kv.1 = c
    · have h1 : kv.1 ∉ visited := by
        rw [hk]
        exact hc
      have h2 : kv.1 ∈ c :: visited := by
        rw [hk]
        exact List.mem_cons_self c visited
      rw [show lookupD (kv :: rest) c = kv.2 from by
        show (if kv.1 = c then kv.2 else lookupD rest c) = kv.2
        rw [if_pos hk]]
      have e1 : List.filter (fun x => decide (x.1 ∉ c :: visited)) (kv :: rest) =
          List.filter (fun x => decide (x.1 ∉ c :: visited)) rest :=
        List.filter_cons_of_neg
          (by simp only [decide_eq_true_eq]; exact fun hh => hh h2)
      have e2 : List.filter (fun x => decide (x.1 ∉ visited)) (kv :: rest) =
          kv :: List.filter (fun x => decide (x.1 ∉ visited)) rest :=
        List.filter_cons_of_pos (by simp only [decide_eq_true_eq]; exact h1)
      rw [e1, e2]
      simp only [List.map_cons, List.sum_cons]
      have h3 := unvisSum_mono rest c visited
      unfold unvisSum at h3
      omega
    · rw [show lookupD (kv :: rest) c = lookupD rest c from by
        show (if kv.1 = c then kv.2 else lookupD rest c) = lookupD rest c
        rw [if_neg hk]]
      by_cases h : kv.1 ∈ visited
      · have h2 : kv.1 ∈ c :: visited := List.mem_cons_of_mem c h
        have e1 : List.filter (fun x => decide (x.1 ∉ c :: visited)) (kv :: rest) =
            List.filter (fun x => decide (x.1 ∉ c :: visited)) rest :=
          List.filter_cons_of_neg
            (by simp only [decide_eq_true_eq]; exact fun hh => hh h2)
        have e2 : List.filter (fun x => decide (x.1 ∉ visited)) (kv :: rest) =
            List.filter (fun x => decide (x.1 ∉ visited)) rest :=
          List.filter_cons_of_neg
            (by simp only [decide_eq_true_eq]; exact fun hh => hh h)
        rw [e1, e2]
        exact ih
      · have h2 : kv.1 ∉ c :: visited := by
          intro hh
          rcases List.mem_cons.mp hh with hh | hh
          · exact hk hh
          · exact h hh
        have e1 : List.filter (fun x => decide (x.1 ∉ c :: visited)) (kv :: rest) =
            kv :: List.filter (fun x => decide (x.1 ∉ c :: visited)) rest :=
          List.filter_cons_of_pos (by simp only [decide_eq_true_eq]; exact h2)
        have e2 : List.filter (fun x => decide (x.1 ∉ visited)) (kv :: rest) =
            kv :: List.filter (fun x => decide (x.1 ∉ visited)) rest :=
          List.filter_cons_of_pos (by simp only [decide_eq_true_eq]; exact h)
        rw [e1, e2]
        simp only [List.map_cons, List.sum_cons]
        omega

theorem spLoop_isSome (g : SocialGraph) (e : Int) :
    ∀ (fuel : Nat) (visited : List Int) (queue : List (Int × List Int)),
      queue.length + unvisSum g.adjacency_list visited < fuel →
      (spLoop g e fuel visited queue).isSome := by
  intro fuel
  induction fuel with
  | zero =>
    intro visited queue h
    omega
  | succ fuel ih =>
    intro visited queue h
    match queue with
    | [] => simp [spLoop]
    | (c, p) :: rest =>
      by_cases hc : c ∈ visited
      · rw [show spLoop g e (fuel + 1) visited ((c, p) :: rest) =
          spLoop g e fuel visited rest from by rw [spLoop, if_pos hc]]
        apply ih
        simp only [List.length_cons] at h
        omega
      · by_cases he : e ∈ lookupD g.adjacency_list c
        · rw [show spLoop g e (fuel + 1) visited ((c, p) :: rest) =
            some (p ++ [e]) from by rw [spLoop, if_neg hc, if_pos he]]
          rfl
        · rw [show spLoop g e (fuel + 1) visited ((c, p) :: rest) =
            spLoop g e fuel (c :: visited)
              (rest ++ ((lookupD g.adjacency_list c).filter
                (fun n => decide (n ∉ c :: visited))).map
                  (fun n => (n, p ++ [n]))) from by
            rw [spLoop, if_neg hc, if_neg he]]
          apply ih
          have hlen : (((lookupD g.adjacency_list c).filter
              (fun n => decide (n ∉ c :: visited))).map
                (fun n => (n, p ++ [n]))).length ≤
              (lookupD g.adjacency_list c).length := by
            rw [List.length_map]
            exact List.length_filter_le _ _
          have hexp := unvisSum_expand g.adjacency_list c visited hc
          simp only [List.length_append, List.length_cons] at h ⊢
          omega

theorem spLoop_mono (g : SocialGraph) (e : Int) :
    ∀ (fuel fuel' : Nat) (visited : List Int)
      (queue : List (Int × List Int)) (r : List Int), fuel ≤ fuel' →
      spLoop g e fuel visited queue = some r →
      spLoop g e fuel' visited queue = some r := by
  intro fuel
  induction fuel with
  | zero =>
    intro fuel' visited queue r _ h
    simp [spLoop] at h
  | succ fuel ih =>
    intro fuel' visited queue r hle h
    match fuel', hle with
    | fuel' + 1, hle =>
      have hle2 : fuel ≤ fuel' := by omega
      match queue with
      | [] =>
        rw [show spLoop g e (fuel + 1) visited [] = some [] from rfl] at h
        exact h
      | (c, p) :: rest =>
        by_cases hc : c ∈ visited
        · rw [show spLoop g e (fuel + 1) visited ((c, p) :: rest) =
            spLoop g e fuel visited rest from by rw [spLoop, if_pos hc]] at h
          rw [show spLoop g e (fuel' + 1) visited ((c, p) :: rest) =
            spLoop g e fuel' visited rest from by rw [spLoop, if_pos hc]]
          exact ih fuel' visited rest r hle2 h
        · by_cases he : e ∈ lookupD g.adjacency_list c
          · rw [show spLoop g e (fuel + 1) visited ((c, p) :: rest) =
              some (p ++ [e]) from by rw [spLoop, if_neg hc, if_pos he]] at h
            rw [show spLoop g e (fuel' + 1) visited ((c, p) :: rest) =
              some (p ++ [e]) from by rw [spLoop, if_neg hc, if_pos he]]
            exact h
          · rw [show spLoop g e (fuel + 1) visited ((c, p) :: rest) =
              spLoop g e fuel (c :: visited)
                (rest ++ ((lookupD g.adjacency_list c).filter
                  (fun n => decide (n ∉ c :: visited))).map
                    (fun n => (n, p ++ [n]))) from by
              rw [spLoop, if_neg hc, if_neg he]] at h
            rw [show spLoop g e (fuel' + 1) visited ((c, p) :: rest) =
              spLoop g e fuel' (c :: visited)
                (rest ++ ((lookupD g.adjacency_list c).filter
                  (fun n => decide (n ∉ c :: visited))).map
                    (fun n => (n, p ++ [n]))) from by
              rw [spLoop, if_neg hc, if_neg he]]
            exact ih fuel' _ _ r hle2 h

theorem csLoop_isSome (g : SocialGraph) (maxd : Nat) :
    ∀ (fuel : Nat) (visited : List Int) (queue : List (Int × Nat)),
      queue.length + unvisSum g.adjacency_list visited +
        unvisSum g.reverse_adjacency_list visited < fuel →
      (csLoop g maxd fuel visited queue).isSome := by
  intro fuel
  induction fuel with
  | zero =>
    intro visited queue h
    omega
  | succ fuel ih =>
    intro visited queue h
    match queue with
    | [] => simp [csLoop]
    | (c, d) :: rest =>
      by_cases hc : c ∈ visited ∨ maxd < d
      · rw [show csLoop g maxd (fuel + 1) visited ((c, d) :: rest) =
          csLoop g maxd fuel visited rest from by rw [csLoop, if_pos hc]]
        apply ih
        simp only [List.length_cons] at h
        omega
      · rw [show csLoop g maxd (fuel + 1) visited ((c, d) :: rest) =
          csLoop g maxd fuel (c :: visited)
            (rest ++ ((lookupD g.adjacency_list c).filter
                (fun n => decide (n ∉ c :: visited))).map (fun n => (n, d + 1))
              ++ ((lookupD g.reverse_adjacency_list c).filter
                (fun n => decide (n ∉ c :: visited))).map
                  (fun n => (n, d + 1))) from by
          rw [csLoop, if_neg hc]]
        apply ih
        push_neg at hc
        have hlen1 : (((lookupD g.adjacency_list c).filter
            (fun n => decide (n ∉ c :: visited))).map
              (fun n => ((n, d + 1) : Int × Nat))).length ≤
            (lookupD g.adjacency_list c).length := by
          rw [List.length_map]
          exact List.length_filter_le _ _
        have hlen2 : (((lookupD g.reverse_adjacency_list c).filter
            (fun n => decide (n ∉ c :: visited))).map
              (fun n => ((n, d + 1) : Int × Nat))).length ≤
            (lookupD g.reverse_adjacency_list c).length := by
          rw [List.length_map]
          exact List.length_filter_le _ _
        have hexp1 := unvisSum_expand g.adjacency_list c visited hc.1
        have hexp2 := unvisSum_expand g.reverse_adjacency_list c visited hc.1
        simp only [List.length_append, List.length_cons] at h ⊢
        omega

theorem csLoop_mono (g : SocialGraph) (maxd : Nat) :
    ∀ (fuel fuel' : Nat) (visited : List Int) (queue : List (Int × Nat))
      (r : List Int), fuel ≤ fuel' →
      csLoop g maxd fuel visited queue = some r →
      csLoop g maxd fuel' visited queue = some r := by
  intro fuel
  induction fuel with
  | zero =>
    intro fuel' visited queue r _ h
    simp [csLoop] at h
  | succ fuel ih =>
    intro fuel' visited queue r hle h
    match fuel', hle with
    | fuel' + 1, hle =>
      have hle2 : fuel ≤ fuel' := by omega
      match queue with
      | [] =>
        rw [show csLoop g maxd (fuel + 1) visited [] = some visited from rfl] at h
        exact h
      | (c, d) :: rest =>
        by_cases hc : c ∈ visited ∨ maxd < d
        · rw [show csLoop g maxd (fuel + 1) visited ((c, d) :: rest) =
            csLoop g maxd fuel visited rest from by rw [csLoop, if_pos hc]] at h
          rw [show csLoop g maxd (fuel' + 1) visited ((c, d) :: rest) =
            csLoop g maxd fuel' visited rest from by rw [csLoop, if_pos hc]]
          exact ih fuel' visited rest r hle2 h
        · rw [show csLoop g maxd (fuel + 1) visited ((c, d) :: rest) =
            csLoop g maxd fuel (c :: visited)
              (rest ++ ((lookupD g.adjacency_list c).filter
                  (fun n => decide (n ∉ c :: visited))).map (fun n => (n, d + 1))
                ++ ((lookupD g.reverse_adjacency_list c).filter
                  (fun n => decide (n ∉ c :: visited))).map
                    (fun n => (n, d + 1))) from by rw [csLoop, if_neg hc]] at h
          rw [show csLoop g maxd (fuel' + 1) visited ((c, d) :: rest) =
            csLoop g maxd fuel' (c :: visited)
              (rest ++ ((lookupD g.adjacency_list c).filter
                  (fun n => decide (n ∉ c :: visited))).map (fun n => (n, d + 1))
                ++ ((lookupD g.reverse_adjacency_list c).filter
                  (fun n => decide (n ∉ c :: visited))).map
                    (fun n => (n, d + 1))) from by rw [csLoop, if_neg hc]]
          exact ih fuel' _ _ r hle2 h

/-- C10: both BFS loops terminate on every finite graph state, cycles and
self-loops included: the fuel bound derived from "every node is expanded at
most once" (`spFuel`/`csFuel`, the total adjacency size plus a constant) is
sufficient — the loop completes within it, and giving it any more fuel does
not change the result. -/
theorem spec_C10 (g : SocialGraph) (s e u : Int) (maxd : Nat) :
    ((spLoop g e (spFuel g) [] [(s, [s])]).isSome ∧
      ∀ fuel, spFuel g ≤ fuel →
        spLoop g e fuel [] [(s, [s])] =
          spLoop g e (spFuel g) [] [(s, [s])]) ∧
    ((csLoop g maxd (csFuel g) [] [(u, 0)]).isSome ∧
      ∀ fuel, csFuel g ≤ fuel →
        csLoop g maxd fuel [] [(u, 0)] =
          csLoop g maxd (csFuel g) [] [(u, 0)]) := by
  have hsp : (spLoop g e (spFuel g) [] [(s, [s])]).isSome := by
    apply spLoop_isSome
    rw [unvisSum_nil_visited]
    show 1 + totalAdjLen g < 2 + totalAdjLen g
    omega
  have hcs : (csLoop g maxd (csFuel g) [] [(u, 0)]).isSome := by
    apply csLoop_isSome
    rw [unvisSum_nil_visited, unvisSum_nil_visited]
    show 1 + totalAdjLen g + totalRevLen g < 2 + totalAdjLen g + totalRevLen g
    omega
  refine ⟨⟨hsp, ?_⟩, hcs, ?_⟩
  · intro fuel hf
    rcases Option.isSome_iff_exists.mp hsp with ⟨r, hr⟩
    rw [hr, spLoop_mono g e (spFuel g) fuel [] [(s, [s])] r hf hr]
  · intro fuel hf
    rcases Option.isSome_iff_exists.mp hcs with ⟨r, hr⟩
    rw [hr, csLoop_mono g maxd (csFuel g) fuel [] [(u, 0)] r hf hr]

/-- Witness for C10 on the two-cycle 1 ⇄ 2 (a cyclic graph), with explicit
extra fuel. -/
theorem spec_C10_witness :
    ((spLoop (follow_user (follow_user emptyGraph 1 2) 2 1) 3
        (spFuel (follow_user (follow_user emptyGraph 1 2) 2 1)) []
        [(1, [1])]).isSome ∧
      spLoop (follow_user (follow_user emptyGraph 1 2) 2 1) 3
        (spFuel (follow_user (follow_user emptyGraph 1 2) 2 1) + 7) []
        [(1, [1])] =
      spLoop (follow_user (follow_user emptyGraph 1 2) 2 1) 3
        (spFuel (follow_user (follow_user emptyGraph 1 2) 2 1)) []
        [(1, [1])]) ∧
    ((csLoop (follow_user (follow_user emptyGraph 1 2) 2 1) 4
        (csFuel (follow_user (follow_user emptyGraph 1 2) 2 1)) []
        [(1, 0)]).isSome ∧
      csLoop (follow_user (follow_user emptyGraph 1 2) 2 1) 4
        (csFuel (follow_user (follow_user emptyGraph 1 2) 2 1) + 7) []
        [(1, 0)] =
      csLoop (follow_user (follow_user emptyGraph 1 2) 2 1) 4
        (csFuel (follow_user (follow_user emptyGraph 1 2) 2 1)) []
        [(1, 0)]) := by
  have h := spec_C10 (follow_user (follow_user emptyGraph 1 2) 2 1) 1 3 1 4
  exact ⟨⟨h.1.1, h.1.2 _ (by omega)⟩, h.2.1, h.2.2 _ (by omega)⟩

/-! ### Directed follow-paths (for C3) -/

/-- One directed follow edge as the BFS traverses it:
`b ∈ adjacency_list.get(a, [])`. -/
def adjStep (g : SocialGraph) (a b : Int) : Prop :=
  b ∈ lookupD g.adjacency_list a

instance (g : SocialGraph) : DecidableRel (adjStep g) := fun a b =>
  inferInstanceAs (Decidable (b ∈ lookupD g.adjacency_list a))

/-- An ordered sequence of user ids in which consecutive users are linked by
a forward (following) edge, from `s` to `t` inclusive. -/
def PathFromTo (g : SocialGraph) (s t : Int) (p : List Int) : Prop :=
  p.Chain' (adjStep g) ∧ p.head? = some s ∧ p.getLast? = some t

instance (g : SocialGraph) (s t : Int) (p : List Int) :
    Decidable (PathFromTo g s t p) :=
  inferInstanceAs (Decidable (_ ∧ _ ∧ _))

theorem pft_ne_nil (g : SocialGraph) (s t : Int) (p : List Int)
    (h : PathFromTo g s t p) : p ≠ [] := by
  intro he
  rw [he] at h
  exact Option.noConfusion h.2.1

theorem pft_single (g : SocialGraph) (s : Int) : PathFromTo g s s [s] :=
  ⟨List.chain'_singleton s, rfl, rfl⟩

theorem pft_length_pos (g : SocialGraph) (s t : Int) (p : List Int)
    (h : PathFromTo g s t p) : 1 ≤ p.length := by
  cases p with
  | nil => exact absurd rfl (pft_ne_nil g s t [] h)
  | cons x xs => simp

theorem pft_length_one (g : SocialGraph) (s t : Int) (p : List Int)
    (h : PathFromTo g s t p) (hl : p.length = 1) : s = t := by
  match p, hl with
  | [x], _ =>
    have h1 : x = s := Option.some.inj h.2.1
    have h2 : x = t := Option.some.inj h.2.2
    rw [← h1, h2]

theorem pft_extend (g : SocialGraph) (s c t : Int) (p : List Int)
    (h : PathFromTo g s c p) (hstep : adjStep g c t) :
    PathFromTo g s t (p ++ [t]) := by
  rcases h with ⟨hch, hhd, hlast⟩
  refine ⟨?_, ?_, List.getLast?_concat p⟩
  · rw [List.chain'_append]
    refine ⟨hch, List.chain'_singleton t, ?_⟩
    intro x hx y hy
    rw [hlast] at hx
    have hx2 : x = c := Option.some.inj hx.symm ▸ rfl
    have hy2 : y = t := by
      simp only [List.head?_cons, Option.mem_def, Option.some.injEq] at hy
      exact hy.symm
    rw [show x = c from by
      simp only [Option.mem_def, Option.some.injEq] at hx
      exact hx.symm, hy2]
    exact hstep
  · cases p with
    | nil => exact Option.noConfusion hhd
    | cons z zs => exact hhd

theorem mem_of_getLast?_eq (l : List Int) (a : Int) (h : l.getLast? = some a) :
    a ∈ l := by
  cases l with
  | nil => exact Option.noConfusion h
  | cons x xs =>
    have hne : x :: xs ≠ [] := List.cons_ne_nil x xs
    rw [List.getLast?_eq_getLast _ hne] at h
    rw [← Option.some.inj h]
    exact List.getLast_mem hne

/-- Decompose a path of length at least 2 as a path to the predecessor of
its last node followed by one edge. -/
theorem pft_decomp (g : SocialGraph) (s t : Int) (p : List Int)
    (h : PathFromTo g s t p) (hl : 2 ≤ p.length) :
    ∃ q x, p = q ++ [t] ∧ PathFromTo g s x q ∧ adjStep g x t ∧
      q.length = p.length - 1 := by
  rcases h with ⟨hch, hhd, hlast⟩
  have hne : p ≠ [] := by
    intro he
    rw [he] at hhd
    exact Option.noConfusion hhd
  have hq : p.dropLast ++ [p.getLast hne] = p := List.dropLast_append_getLast hne
  have hlt : p.getLast hne = t := by
    rw [List.getLast?_eq_getLast _ hne] at hlast
    exact Option.some.inj hlast
  have hqne : p.dropLast ≠ [] := by
    intro he
    have := congrArg List.length hq
    rw [he] at this
    simp at this
    omega
  have hx : p.dropLast.getLast? = some (p.dropLast.getLast hqne) :=
    List.getLast?_eq_getLast _ hqne
  refine ⟨p.dropLast, p.dropLast.getLast hqne, by rw [← hlt, hq], ⟨?_, ?_, hx⟩, ?_, ?_⟩
  · have := hch
    rw [← hq, List.chain'_append] at this
    exact this.1
  · rw [← hq] at hhd
    cases hd : p.dropLast with
    | nil => exact absurd hd hqne
    | cons z zs =>
      rw [hd] at hhd
      exact hhd
  · have := hch
    rw [← hq, List.chain'_append] at this
    have hseam := this.2.2 (p.dropLast.getLast hqne) hx (p.getLast hne) rfl
    rw [hlt] at hseam
    exact hseam
  · have := congrArg List.length hq
    simp only [List.length_append, List.length_cons, List.length_nil] at this
    omega

/-- Split a path across a decomposition `p = u ++ w :: v` with `u ≠ []`:
the prefix is a path to its own last node, which has an edge to `w`. -/
theorem pft_split_seam (g : SocialGraph) (s t w : Int) (p u v : List Int)
    (h : PathFromTo g s t p) (hp : p = u ++ w :: v) (hu : u ≠ []) :
    ∃ x, u.getLast? = some x ∧ PathFromTo g s x u ∧ adjStep g x w := by
  rcases h with ⟨hch, hhd, _⟩
  rw [hp, List.chain'_append] at hch
  have hx : u.getLast? = some (u.getLast hu) := List.getLast?_eq_getLast _ hu
  refine ⟨u.getLast hu, hx, ⟨hch.1, ?_, hx⟩, ?_⟩
  · rw [hp] at hhd
    cases hd : u with
    | nil => exact absurd hd hu
    | cons z zs =>
      rw [hd] at hhd
      exact hhd
  · exact hch.2.2 (u.getLast hu) hx w rfl

/-- Walking a list whose head is in `V` but whose last element is not, there
is a first element outside `V`: `r = u ++ w :: t` with `u` nonempty and all
inside `V`, and `w ∉ V`. -/
theorem first_out_split (r V : List Int) (x0 : Int)
    (hhd : r.head? = some x0) (hx0 : x0 ∈ V)
    (y : Int) (hy : y ∈ r) (hyV : y ∉ V) :
    ∃ u w t, r = u ++ w :: t ∧ u ≠ [] ∧ (∀ z ∈ u, z ∈ V) ∧ w ∉ V := by
  induction r generalizing x0 with
  | nil => exact absurd hy (List.not_mem_nil y)
  | cons a as ih =>
    have ha : a = x0 := by
      simp only [List.head?_cons, Option.some.injEq] at hhd
      exact hhd
    have haV : a ∈ V := ha ▸ hx0
    have hyas : y ∈ as := by
      rcases List.mem_cons.mp hy with h | h
      · exact absurd (h ▸ haV) hyV
      · exact h
    cases as with
    | nil => exact absurd hyas (List.not_mem_nil y)
    | cons b bs =>
      by_cases hb : b ∈ V
      · rcases ih b rfl hb hyas with ⟨u, w, t, he, hu, huV, hw⟩
        refine ⟨a :: u, w, t, by rw [List.cons_append, ← he], List.cons_ne_nil a u, ?_, hw⟩
        intro z hz
        rcases List.mem_cons.mp hz with h | h
        · exact h ▸ haV
        · exact huV z h
      · exact ⟨[a], b, bs, rfl, List.cons_ne_nil a [], by
          intro z hz
          rcases List.mem_cons.mp hz with h | h
          · exact h ▸ haV
          · exact absurd h (List.not_mem_nil z), hb⟩

/-! ### The BFS loop invariant for shortest_path_bfs -/

theorem mem_expand_entries (g : SocialGraph) (c : Int) (p : List Int)
    (visited : List Int) (n : Int) (q : List Int) :
    (n, q) ∈ ((lookupD g.adjacency_list c).filter
      (fun m => decide (m ∉ c :: visited))).map (fun m => (m, p ++ [m])) ↔
    (n ∈ lookupD g.adjacency_list c ∧ n ∉ c :: visited ∧ q = p ++ [n]) := by
  constructor
  · intro h
    rcases List.mem_map.mp h with ⟨m, hm, he⟩
    have h1 : m = n := congrArg Prod.fst he
    subst h1
    have h2 : q = p ++ [m] := (congrArg Prod.snd he).symm
    rcases List.mem_filter.mp hm with ⟨hmem, hcond⟩
    exact ⟨hmem, by simpa using hcond, h2⟩
  · rintro ⟨h1, h2, h3⟩
    exact List.mem_map.mpr ⟨n, List.mem_filter.mpr ⟨h1, by simpa using h2⟩,
      by rw [h3]⟩

/-- Loop invariant of the `while queue:` loop of `shortest_path_bfs` (after
the `start == end` special case, so `s ≠ e` throughout).  `wf`: each queue
entry carries a real path from `s` to its node.  `sorted`/`spread`: queue
path lengths are nondecreasing and within one of each other (FIFO level
structure).  `noE`/`eVis`/`eAdj`: the end user is never enqueued or visited,
and no visited node has an edge to it (else the loop would already have
returned).  `minEntry`: an unvisited out-neighbor of a visited node is
queued with an entry no longer than any path reaching it.  `headBound`:
every node strictly closer than the head entry is already visited. -/
structure SPInv (g : SocialGraph) (s e : Int) (visited : List Int)
    (queue : List (Int × List Int)) : Prop where
  wf : ∀ c p, (c, p) ∈ queue → PathFromTo g s c p
  sorted : List.Pairwise (fun x y => x.2.length ≤ y.2.length) queue
  spread : ∀ x ∈ queue, ∀ y ∈ queue, x.2.length ≤ y.2.length + 1
  noE : ∀ c p, (c, p) ∈ queue → c ≠ e
  eAdj : ∀ v ∈ visited, e ∉ lookupD g.adjacency_list v
  eVis : e ∉ visited
  minEntry : ∀ v, v ∉ visited → v ≠ e →
    (∃ u ∈ visited, v ∈ lookupD g.adjacency_list u) →
    ∀ r, PathFromTo g s v r →
      ∃ p', (v, p') ∈ queue ∧ p'.length ≤ r.length
  headBound : ∀ c₀ p₀ rest, queue = (c₀, p₀) :: rest →
    ∀ x r, PathFromTo g s x r → r.length < p₀.length → x ∈ visited
  startNew : visited = [] → queue = [(s, [s])]
  startVis : visited ≠ [] → s ∈ visited

theorem SPInv_init (g : SocialGraph) (s e : Int) (hne : s ≠ e) :
    SPInv g s e [] [(s, [s])] := by
  refine ⟨?_, ?_, ?_, ?_, ?_, ?_, ?_, ?_, ?_, ?_⟩
  · intro c p h
    rcases List.mem_cons.mp h with h | h
    · have h1 : c = s := congrArg Prod.fst h
      have h2 : p = [s] := congrArg Prod.snd h
      rw [h1, h2]
      exact pft_single g s
    · exact absurd h (List.not_mem_nil _)
  · exact List.pairwise_singleton _ _
  · intro x hx y hy
    rcases List.mem_cons.mp hx with rfl | hx
    · exact Nat.le_add_left _ _
    · exact absurd hx (List.not_mem_nil _)
  · intro c p h
    rcases List.mem_cons.mp h with h | h
    · have : c = s := congrArg Prod.fst h
      rw [this]
      exact hne
    · exact absurd h (List.not_mem_nil _)
  · intro v hv
    exact absurd hv (List.not_mem_nil _)
  · exact List.not_mem_nil _
  · intro v hv hve hex r hr
    rcases hex with ⟨u, hu, _⟩
    exact absurd hu (List.not_mem_nil _)
  · intro c₀ p₀ rest hqe x r hr hlen
    exfalso
    injection hqe with h1 h2
    have hp₀ : p₀ = [s] := (congrArg Prod.snd h1).symm
    rw [hp₀] at hlen
    have hpos := pft_length_pos g s x r hr
    have hone : ([s] : List Int).length = 1 := rfl
    omega
  · intro _
    rfl
  · intro h
    exact absurd rfl h

theorem sp_frontier (g : SocialGraph) (s e : Int) (visited : List Int)
    (c : Int) (p : List Int) (rest : List (Int × List Int))
    (hinv : SPInv g s e visited ((c, p) :: rest))
    (x : Int) (r : List Int) (hr : PathFromTo g s x r)
    (hlen : r.length ≤ p.length) (hxc : x ≠ c) (hxv : x ∉ visited) :
    ∃ p', (x, p') ∈ rest ∧ p'.length ≤ r.length := by
  by_cases h1 : r.length = 1
  · exfalso
    have hsx : s = x := pft_length_one g s x r hr h1
    by_cases hv : visited = []
    · have hq := hinv.startNew hv
      injection hq with ha hb
      have hcs : c = s := congrArg Prod.fst ha
      exact hxc (hsx ▸ hcs).symm
    · exact hxv (hsx ▸ hinv.startVis hv)
  · have h2 : 2 ≤ r.length := by
      have := pft_length_pos g s x r hr
      omega
    rcases pft_decomp g s x r hr h2 with ⟨q, x', hqe, hq, hstep, hqlen⟩
    have hx'v : x' ∈ visited := by
      apply hinv.headBound c p rest rfl x' q hq
      omega
    have hxe : x ≠ e := by
      intro hhe
      exact hinv.eAdj x' hx'v (hhe ▸ hstep)
    rcases hinv.minEntry x hxv hxe ⟨x', hx'v, hstep⟩ r hr with ⟨p', hp', hple⟩
    rcases List.mem_cons.mp hp' with hh | hh
    · exact absurd (congrArg Prod.fst hh) hxc
    · exact ⟨p', hh, hple⟩

theorem SPInv_skip (g : SocialGraph) (s e : Int) (visited : List Int)
    (c : Int) (p : List Int) (rest : List (Int × List Int))
    (hinv : SPInv g s e visited ((c, p) :: rest)) (hc : c ∈ visited) :
    SPInv g s e visited rest := by
  rcases List.pairwise_cons.mp hinv.sorted with ⟨hheadle, hrestsorted⟩
  refine ⟨?_, hrestsorted, ?_, ?_, hinv.eAdj, hinv.eVis, ?_, ?_, ?_,
    hinv.startVis⟩
  · intro c2 p2 h
    exact hinv.wf c2 p2 (List.mem_cons_of_mem _ h)
  · intro x hx y hy
    exact hinv.spread x (List.mem_cons_of_mem _ hx) y (List.mem_cons_of_mem _ hy)
  · intro c2 p2 h
    exact hinv.noE c2 p2 (List.mem_cons_of_mem _ h)
  · intro v hv hve hex r hr
    rcases hinv.minEntry v hv hve hex r hr with ⟨p', hp', hle⟩
    rcases List.mem_cons.mp hp' with hh | hh
    · exfalso
      have : v = c := congrArg Prod.fst hh
      exact hv (this ▸ hc)
    · exact ⟨p', hh, hle⟩
  · intro c₁ p₁ rest₂ hqe x r hr hlen
    by_cases hxc : x = c
    · rw [hxc]
      exact hc
    by_cases hxv : x ∈ visited
    · exact hxv
    exfalso
    have hp₁mem : (c₁, p₁) ∈ rest := by
      rw [hqe]
      exact List.mem_cons_self _ _
    have hub : p₁.length ≤ p.length + 1 :=
      hinv.spread (c₁, p₁) (List.mem_cons_of_mem _ hp₁mem) (c, p)
        (List.mem_cons_self _ _)
    have hrle : r.length ≤ p.length := by omega
    rcases sp_frontier g s e visited c p rest hinv x r hr hrle hxc hxv with
      ⟨p', hp', hle⟩
    have hp'len : p₁.length ≤ p'.length := by
      rw [hqe] at hp'
      rcases List.mem_cons.mp hp' with hh | hh
      · have : p' = p₁ := congrArg Prod.snd hh
        rw [this]
      · rcases List.pairwise_cons.mp (hqe ▸ hrestsorted) with ⟨hhd, -⟩
        exact hhd _ hh
    omega
  · intro hv
    exfalso
    rw [hv] at hc
    exact List.not_mem_nil c hc

theorem SPInv_expand (g : SocialGraph) (s e : Int) (visited : List Int)
    (c : Int) (p : List Int) (rest : List (Int × List Int))
    (hinv : SPInv g s e visited ((c, p) :: rest)) (hc : c ∉ visited)
    (he : e ∉ lookupD g.adjacency_list c) :
    SPInv g s e (c :: visited)
      (rest ++ ((lookupD g.adjacency_list c).filter
        (fun n => decide (n ∉ c :: visited))).map (fun n => (n, p ++ [n]))) := by
  set newE := ((lookupD g.adjacency_list c).filter
    (fun n => decide (n ∉ c :: visited))).map (fun n => (n, p ++ [n])) with hnewE
  have hwfhead : PathFromTo g s c p := hinv.wf c p (List.mem_cons_self _ _)
  have hmemNew : ∀ n q, (n, q) ∈ newE ↔
      (n ∈ lookupD g.adjacency_list c ∧ n ∉ c :: visited ∧ q = p ++ [n]) :=
    fun n q => mem_expand_entries g c p visited n q
  have hlenNew : ∀ x ∈ newE, x.2.length = p.length + 1 := by
    intro x hx
    rcases x with ⟨n, q⟩
    rcases (hmemNew n q).mp hx with ⟨-, -, hq⟩
    rw [hq]
    simp
  rcases List.pairwise_cons.mp hinv.sorted with ⟨hheadle, hrestsorted⟩
  refine ⟨?_, ?_, ?_, ?_, ?_, ?_, ?_, ?_, ?_, ?_⟩
  · intro c2 p2 h
    rcases List.mem_append.mp h with h | h
    · exact hinv.wf c2 p2 (List.mem_cons_of_mem _ h)
    · rcases (hmemNew c2 p2).mp h with ⟨hadj, -, hq⟩
      rw [hq]
      exact pft_extend g s c c2 p hwfhead hadj
  · rw [List.pairwise_append]
    refine ⟨hrestsorted, ?_, ?_⟩
    · apply List.pairwise_of_forall_mem_list
      intro a ha b hb
      rw [hlenNew a ha, hlenNew b hb]
    · intro a ha b hb
      rw [hlenNew b hb]
      exact hinv.spread a (List.mem_cons_of_mem _ ha) (c, p)
        (List.mem_cons_self _ _)
  · intro x hx y hy
    rcases List.mem_append.mp hx with hx | hx <;>
      rcases List.mem_append.mp hy with hy | hy
    · exact hinv.spread x (List.mem_cons_of_mem _ hx) y
        (List.mem_cons_of_mem _ hy)
    · rw [hlenNew y hy]
      have h2 : x.2.length ≤ p.length + 1 := hinv.spread x
        (List.mem_cons_of_mem _ hx) (c, p) (List.mem_cons_self _ _)
      omega
    · rw [hlenNew x hx]
      have h2 : p.length ≤ y.2.length := hheadle y hy
      omega
    · rw [hlenNew x hx, hlenNew y hy]
      omega
  · intro c2 p2 h
    rcases List.mem_append.mp h with h | h
    · exact hinv.noE c2 p2 (List.mem_cons_of_mem _ h)
    · rcases (hmemNew c2 p2).mp h with ⟨hadj, -, -⟩
      intro hce
      rw [hce] at hadj
      exact he hadj
  · intro v hv
    rcases List.mem_cons.mp hv with hv | hv
    · rw [hv]
      exact he
    · exact hinv.eAdj v hv
  · intro hev
    rcases List.mem_cons.mp hev with hev | hev
    · exact hinv.noE c p (List.mem_cons_self _ _) hev.symm
    · exact hinv.eVis hev
  · intro v hv hve hex r hr
    have hv1 : v ≠ c := fun hh => hv (hh ▸ List.mem_cons_self c visited)
    have hv2 : v ∉ visited := fun hh => hv (List.mem_cons_of_mem c hh)
    rcases hex with ⟨u, hu, hadj⟩
    rcases List.mem_cons.mp hu with hu | hu
    · rw [hu] at hadj
      by_cases hcase : p.length + 1 ≤ r.length
      · refine ⟨p ++ [v], List.mem_append.mpr
          (Or.inr ((hmemNew v _).mpr ⟨hadj, hv, rfl⟩)), ?_⟩
        simp only [List.length_append, List.length_cons, List.length_nil]
        omega
      · have hrle : r.length ≤ p.length := by omega
        rcases sp_frontier g s e visited c p rest hinv v r hr hrle hv1 hv2 with
          ⟨p', hp', hle⟩
        exact ⟨p', List.mem_append.mpr (Or.inl hp'), hle⟩
    · rcases hinv.minEntry v hv2 hve ⟨u, hu, hadj⟩ r hr with ⟨p', hp', hle⟩
      rcases List.mem_cons.mp hp' with hh | hh
      · exact absurd (congrArg Prod.fst hh) hv1
      · exact ⟨p', List.mem_append.mpr (Or.inl hh), hle⟩
  · intro c₀ p₀ rest₀ hqe x r hr hlen
    have hp₀mem : (c₀, p₀) ∈ rest ++ newE := by
      rw [hqe]
      exact List.mem_cons_self _ _
    have hub : p₀.length ≤ p.length + 1 := by
      rcases List.mem_append.mp hp₀mem with hmem | hmem
      · exact hinv.spread (c₀, p₀) (List.mem_cons_of_mem _ hmem) (c, p)
          (List.mem_cons_self _ _)
      · rw [hlenNew _ hmem]
    by_cases hrlt : r.length < p.length
    · exact List.mem_cons_of_mem c (hinv.headBound c p rest rfl x r hr hrlt)
    by_cases hxc : x = c
    · rw [hxc]
      exact List.mem_cons_self _ _
    by_cases hxv : x ∈ visited
    · exact List.mem_cons_of_mem c hxv
    exfalso
    have hrle : r.length ≤ p.length := by omega
    rcases sp_frontier g s e visited c p rest hinv x r hr hrle hxc hxv with
      ⟨p', hp', hle⟩
    cases hrest : rest with
    | nil =>
      rw [hrest] at hp'
      exact absurd hp' (List.not_mem_nil _)
    | cons hd tl =>
      rw [hrest] at hqe
      rw [List.cons_append] at hqe
      injection hqe with hhd htl
      have hp₀hd : p₀.length ≤ p'.length := by
        rw [hrest] at hp'
        rcases List.mem_cons.mp hp' with hh | hh
        · have h3 : p' = p₀ := by
            rw [hhd] at hh
            exact congrArg Prod.snd hh
          rw [h3]
        · rw [hrest] at hrestsorted
          rcases List.pairwise_cons.mp hrestsorted with ⟨hhd2, -⟩
          have h4 : hd.2 = p₀ := congrArg Prod.snd hhd
          rw [← h4]
          exact hhd2 _ hh
      omega
  · intro h
    exact absurd h (List.cons_ne_nil _ _)
  · intro _
    by_cases hv : visited = []
    · have hq := hinv.startNew hv
      injection hq with h1 h2
      have hcs : c = s := congrArg Prod.fst h1
      rw [hcs]
      exact List.mem_cons_self _ _
    · exact List.mem_cons_of_mem c (hinv.startVis hv)

theorem spLoop_correct (g : SocialGraph) (s e : Int) (hne : s ≠ e) :
    ∀ (fuel : Nat) (visited : List Int) (queue : List (Int × List Int))
      (res : List Int),
      SPInv g s e visited queue →
      spLoop g e fuel visited queue = some res →
      (res = [] → ∀ r, ¬ PathFromTo g s e r) ∧
      (res ≠ [] → PathFromTo g s e res ∧
        ∀ q, PathFromTo g s e q → res.length ≤ q.length) := by
  intro fuel
  induction fuel with
  | zero =>
    intro visited queue res _ h
    simp [spLoop] at h
  | succ fuel ih =>
    intro visited queue res hinv h
    match queue with
    | [] =>
      have hres : res = [] := by
        have h0 : spLoop g e (fuel + 1) visited [] = some [] := rfl
        rw [h0] at h
        exact (Option.some.inj h).symm
      subst hres
      constructor
      · intro _ r hr
        have hvisne : visited ≠ [] := by
          intro hv
          have hq := hinv.startNew hv
          exact List.cons_ne_nil _ _ hq.symm
        have hsvis : s ∈ visited := hinv.startVis hvisne
        have hmem : e ∈ r := mem_of_getLast?_eq r e hr.2.2
        rcases first_out_split r visited s hr.2.1 hsvis e hmem hinv.eVis with
          ⟨u, w, t, hre, hu, huV, hw⟩
        rcases pft_split_seam g s e w r u t hr hre hu with ⟨x, hxl, hxp, hxs⟩
        have hxv : x ∈ visited := huV x (mem_of_getLast?_eq u x hxl)
        have hwe : w ≠ e := by
          intro hh
          exact hinv.eAdj x hxv (hh ▸ hxs)
        have hpw : PathFromTo g s w (u ++ [w]) := pft_extend g s x w u hxp hxs
        rcases hinv.minEntry w hw hwe ⟨x, hxv, hxs⟩ (u ++ [w]) hpw with
          ⟨p', hp', -⟩
        exact absurd hp' (List.not_mem_nil _)
      · intro hne2
        exact absurd rfl hne2
    | (c, p) :: rest =>
      by_cases hcv : c ∈ visited
      · have hstep : spLoop g e (fuel + 1) visited ((c, p) :: rest) =
            spLoop g e fuel visited rest := by rw [spLoop, if_pos hcv]
        rw [hstep] at h
        exact ih visited rest res (SPInv_skip g s e visited c p rest hinv hcv) h
      · by_cases hee : e ∈ lookupD g.adjacency_list c
        · have hstep : spLoop g e (fuel + 1) visited ((c, p) :: rest) =
              some (p ++ [e]) := by rw [spLoop, if_neg hcv, if_pos hee]
          rw [hstep] at h
          have hres : res = p ++ [e] := (Option.some.inj h).symm
          subst hres
          constructor
          · intro habs
            exfalso
            simp at habs
          · intro _
            have hwf : PathFromTo g s c p := hinv.wf c p (List.mem_cons_self _ _)
            refine ⟨pft_extend g s c e p hwf hee, ?_⟩
            intro q hq
            by_contra hlt
            push_neg at hlt
            have hql : q.length ≤ p.length := by
              simp only [List.length_append, List.length_cons,
                List.length_nil] at hlt
              omega
            by_cases hq1 : q.length = 1
            · exact hne (pft_length_one g s e q hq hq1)
            · have hq2 : 2 ≤ q.length := by
                have := pft_length_pos g s e q hq
                omega
              rcases pft_decomp g s e q hq hq2 with
                ⟨q', x', hqe', hq', hstep', hqlen'⟩
              have hx'v : x' ∈ visited := by
                apply hinv.headBound c p rest rfl x' q' hq'
                omega
              exact hinv.eAdj x' hx'v hstep'
        · have hstep : spLoop g e (fuel + 1) visited ((c, p) :: rest) =
              spLoop g e fuel (c :: visited)
                (rest ++ ((lookupD g.adjacency_list c).filter
                  (fun n => decide (n ∉ c :: visited))).map
                    (fun n => (n, p ++ [n]))) := by
            rw [spLoop, if_neg hcv, if_neg hee]
          rw [hstep] at h
          exact ih _ _ res (SPInv_expand g s e visited c p rest hinv hcv hee) h

/-- C3: `shortest_path_bfs(start, end)` returns `[]` when either endpoint is
unregistered; `[start]` when `start == end`; otherwise, when a directed
following-path exists it returns a directed path from start to end
(inclusive, one hop per edge) of minimum length, and when none exists it
returns `[]`. -/
theorem spec_C3 (g : SocialGraph) (s e : Int) :
    ((s ∉ dkeys g.adjacency_list ∨ e ∉ dkeys g.adjacency_list) →
      shortest_path_bfs g s e = []) ∧
    (s ∈ dkeys g.adjacency_list → e ∈ dkeys g.adjacency_list → s = e →
      shortest_path_bfs g s e = [s]) ∧
    (s ∈ dkeys g.adjacency_list → e ∈ dkeys g.adjacency_list →
      (∃ r, PathFromTo g s e r) →
      PathFromTo g s e (shortest_path_bfs g s e) ∧
      ∀ q, PathFromTo g s e q → (shortest_path_bfs g s e).length ≤ q.length) ∧
    (s ∈ dkeys g.adjacency_list → e ∈ dkeys g.adjacency_list →
      (∀ r, ¬ PathFromTo g s e r) → shortest_path_bfs g s e = []) := by
  by_cases hreg : s ∉ dkeys g.adjacency_list ∨ e ∉ dkeys g.adjacency_list
  · have hempty : shortest_path_bfs g s e = [] := by
      unfold shortest_path_bfs
      rw [if_pos hreg]
    refine ⟨fun _ => hempty, ?_, ?_, fun _ _ _ => hempty⟩
    · intro hs he _
      exfalso
      rcases hreg with h | h
      · exact h hs
      · exact h he
    · intro hs he _
      exfalso
      rcases hreg with h | h
      · exact h hs
      · exact h he
  · by_cases hse : s = e
    · have hval : shortest_path_bfs g s e = [s] := by
        unfold shortest_path_bfs
        rw [if_neg hreg, if_pos hse]
      refine ⟨fun h => absurd h hreg, fun _ _ _ => hval, ?_, ?_⟩
      · intro _ _ _
        rw [hval]
        constructor
        · rw [← hse]
          exact pft_single g s
        · intro q hq
          have := pft_length_pos g s e q hq
          simp only [List.length_cons, List.length_nil]
          omega
      · intro _ _ hnp
        exfalso
        exact hnp [s] (hse ▸ pft_single g s)
    · have hsome : ∃ res, spLoop g e (spFuel g) [] [(s, [s])] = some res := by
        apply Option.isSome_iff_exists.mp
        apply spLoop_isSome
        rw [unvisSum_nil_visited]
        simp only [List.length_cons, List.length_nil, spFuel, totalAdjLen]
        omega
      rcases hsome with ⟨res, hres⟩
      have hval : shortest_path_bfs g s e = res := by
        unfold shortest_path_bfs
        rw [if_neg hreg, if_neg hse, hres]
        rfl
      have hcor := spLoop_correct g s e hse (spFuel g) [] [(s, [s])] res
        (SPInv_init g s e hse) hres
      refine ⟨fun h => absurd h hreg, fun _ _ hse2 => absurd hse2 hse, ?_, ?_⟩
      · intro _ _ hex
        rcases hex with ⟨r, hr⟩
        have hresne : res ≠ [] := by
          intro hnil
          exact hcor.1 hnil r hr
        rw [hval]
        exact hcor.2 hresne
      · intro _ _ hnp
        rw [hval]
        by_cases hresne : res = []
        · exact hresne
        · exfalso
          exact hnp res (hcor.2 hresne).1

/-- Witness for C3 on the chain 1 → 2 → 3 (and an unregistered endpoint
99 and the equal-endpoints case). -/
theorem spec_C3_witness :
    shortest_path_bfs (follow_user (follow_user emptyGraph 1 2) 2 3) 1 99 = [] ∧
    shortest_path_bfs (follow_user (follow_user emptyGraph 1 2) 2 3) 1 1 = [1] ∧
    PathFromTo (follow_user (follow_user emptyGraph 1 2) 2 3) 1 3
      (shortest_path_bfs (follow_user (follow_user emptyGraph 1 2) 2 3) 1 3) ∧
    ∀ q, PathFromTo (follow_user (follow_user emptyGraph 1 2) 2 3) 1 3 q →
      (shortest_path_bfs (follow_user (follow_user emptyGraph 1 2) 2 3)
        1 3).length ≤ q.length := by
  refine ⟨?_, ?_, ?_, ?_⟩
  · exact (spec_C3 (follow_user (follow_user emptyGraph 1 2) 2 3) 1 99).1
      (by decide)
  · exact (spec_C3 (follow_user (follow_user emptyGraph 1 2) 2 3) 1 1).2.1
      (by decide) (by decide) rfl
  · exact ((spec_C3 (follow_user (follow_user emptyGraph 1 2) 2 3) 1 3).2.2.1
      (by decide) (by decide) ⟨[1, 2, 3], by
        refine ⟨?_, rfl, rfl⟩
        rw [List.chain'_cons, List.chain'_cons]
        exact ⟨by decide, by decide, List.chain'_singleton 3⟩⟩).1
  · exact ((spec_C3 (follow_user (follow_user emptyGraph 1 2) 2 3) 1 3).2.2.1
      (by decide) (by decide) ⟨[1, 2, 3], by
        refine ⟨?_, rfl, rfl⟩
        rw [List.chain'_cons, List.chain'_cons]
        exact ⟨by decide, by decide, List.chain'_singleton 3⟩⟩).2

/-! ### Undirected traversal paths (for C6)

`get_community_size` explores both `adjacency_list.get(current, [])` and
`reverse_adjacency_list.get(current, [])`, i.e. it walks edges in both
directions. -/

/-- One hop as the community BFS takes it: forward or reverse edge. -/
def ustep (g : SocialGraph) (a b : Int) : Prop :=
  b ∈ lookupD g.adjacency_list a ∨ b ∈ lookupD g.reverse_adjacency_list a

instance (g : SocialGraph) : DecidableRel (ustep g) := fun a b =>
  inferInstanceAs (Decidable (_ ∨ _))

/-- A sequence of users from `s` to `t` inclusive in which consecutive
users are linked by a forward or reverse edge ("undirected" path). -/
def UPathFromTo (g : SocialGraph) (s t : Int) (p : List Int) : Prop :=
  p.Chain' (ustep g) ∧ p.head? = some s ∧ p.getLast? = some t

instance (g : SocialGraph) (s t : Int) (p : List Int) :
    Decidable (UPathFromTo g s t p) :=
  inferInstanceAs (Decidable (_ ∧ _ ∧ _))

theorem upft_single (g : SocialGraph) (s : Int) : UPathFromTo g s s [s] :=
  ⟨List.chain'_singleton s, rfl, rfl⟩

theorem upft_length_pos (g : SocialGraph) (s t : Int) (p : List Int)
    (h : UPathFromTo g s t p) : 1 ≤ p.length := by
  cases p with
  | nil => exact Option.noConfusion h.2.1
  | cons x xs => simp

theorem upft_length_one (g : SocialGraph) (s t : Int) (p : List Int)
    (h : UPathFromTo g s t p) (hl : p.length = 1) : s = t := by
  match p, hl with
  | [x], _ =>
    have h1 : x = s := Option.some.inj h.2.1
    have h2 : x = t := Option.some.inj h.2.2
    rw [← h1, h2]

theorem upft_extend (g : SocialGraph) (s c t : Int) (p : List Int)
    (h : UPathFromTo g s c p) (hstep : ustep g c t) :
    UPathFromTo g s t (p ++ [t]) := by
  rcases h with ⟨hch, hhd, hlast⟩
  refine ⟨?_, ?_, List.getLast?_concat p⟩
  · rw [List.chain'_append]
    refine ⟨hch, List.chain'_singleton t, ?_⟩
    intro x hx y hy
    rw [hlast] at hx
    have hy2 : y = t := by
      simp only [List.head?_cons, Option.mem_def, Option.some.injEq] at hy
      exact hy.symm
    rw [show x = c from by
      simp only [Option.mem_def, Option.some.injEq] at hx
      exact hx.symm, hy2]
    exact hstep
  · cases p with
    | nil => exact Option.noConfusion hhd
    | cons z zs => exact hhd

theorem upft_decomp (g : SocialGraph) (s t : Int) (p : List Int)
    (h : UPathFromTo g s t p) (hl : 2 ≤ p.length) :
    ∃ q x, p = q ++ [t] ∧ UPathFromTo g s x q ∧ ustep g x t ∧
      q.length = p.length - 1 := by
  rcases h with ⟨hch, hhd, hlast⟩
  have hne : p ≠ [] := by
    intro he
    rw [he] at hhd
    exact Option.noConfusion hhd
  have hq : p.dropLast ++ [p.getLast hne] = p := List.dropLast_append_getLast hne
  have hlt : p.getLast hne = t := by
    rw [List.getLast?_eq_getLast _ hne] at hlast
    exact Option.some.inj hlast
  have hqne : p.dropLast ≠ [] := by
    intro he
    have := congrArg List.length hq
    rw [he] at this
    simp at this
    omega
  have hx : p.dropLast.getLast? = some (p.dropLast.getLast hqne) :=
    List.getLast?_eq_getLast _ hqne
  refine ⟨p.dropLast, p.dropLast.getLast hqne, by rw [← hlt, hq],
    ⟨?_, ?_, hx⟩, ?_, ?_⟩
  · have := hch
    rw [← hq, List.chain'_append] at this
    exact this.1
  · rw [← hq] at hhd
    cases hd : p.dropLast with
    | nil => exact absurd hd hqne
    | cons z zs =>
      rw [hd] at hhd
      exact hhd
  · have := hch
    rw [← hq, List.chain'_append] at this
    have hseam := this.2.2 (p.dropLast.getLast hqne) hx (p.getLast hne) rfl
    rw [hlt] at hseam
    exact hseam
  · have := congrArg List.length hq
    simp only [List.length_append, List.length_cons, List.length_nil] at this
    omega

theorem upft_split_seam (g : SocialGraph) (s t w : Int) (p u v : List Int)
    (h : UPathFromTo g s t p) (hp : p = u ++ w :: v) (hu : u ≠ []) :
    ∃ x, u.getLast? = some x ∧ UPathFromTo g s x u ∧ ustep g x w := by
  rcases h with ⟨hch, hhd, -⟩
  rw [hp, List.chain'_append] at hch
  have hx : u.getLast? = some (u.getLast hu) := List.getLast?_eq_getLast _ hu
  refine ⟨u.getLast hu, hx, ⟨hch.1, ?_, hx⟩, ?_⟩
  · rw [hp] at hhd
    cases hd : u with
    | nil => exact absurd hd hu
    | cons z zs =>
      rw [hd] at hhd
      exact hhd
  · exact hch.2.2 (u.getLast hu) hx w rfl

/-- A prefix of an undirected path up to a seam element is itself a
bounded-length path: used to cut a path at a frontier node. -/
theorem upft_take_seam (g : SocialGraph) (s t w : Int) (p u v : List Int)
    (h : UPathFromTo g s t p) (hp : p = u ++ w :: v) (hu : u ≠ []) :
    UPathFromTo g s w (u ++ [w]) ∧ (u ++ [w]).length ≤ p.length := by
  rcases upft_split_seam g s t w p u v h hp hu with ⟨x, hxl, hxp, hxs⟩
  constructor
  · exact upft_extend g s x w u hxp hxs
  · rw [hp]
    simp only [List.length_append, List.length_cons, List.length_nil]
    omega

/-! ### The BFS loop invariant for get_community_size -/

theorem mem_cs_entries (g : SocialGraph) (c : Int) (d : Nat)
    (visited : List Int) (n : Int) (d' : Nat) :
    (n, d') ∈ ((lookupD g.adjacency_list c).filter
        (fun m => decide (m ∉ c :: visited))).map (fun m => (m, d + 1))
      ++ ((lookupD g.reverse_adjacency_list c).filter
        (fun m => decide (m ∉ c :: visited))).map (fun m => (m, d + 1)) ↔
    (ustep g c n ∧ n ∉ c :: visited ∧ d' = d + 1) := by
  constructor
  · intro h
    rcases List.mem_append.mp h with h | h
    · rcases List.mem_map.mp h with ⟨m, hm, he⟩
      have h1 : m = n := congrArg Prod.fst he
      subst h1
      have h2 : d' = d + 1 := (congrArg Prod.snd he).symm
      rcases List.mem_filter.mp hm with ⟨hmem, hcond⟩
      exact ⟨Or.inl hmem, by simpa using hcond, h2⟩
    · rcases List.mem_map.mp h with ⟨m, hm, he⟩
      have h1 : m = n := congrArg Prod.fst he
      subst h1
      have h2 : d' = d + 1 := (congrArg Prod.snd he).symm
      rcases List.mem_filter.mp hm with ⟨hmem, hcond⟩
      exact ⟨Or.inr hmem, by simpa using hcond, h2⟩
  · rintro ⟨hstep, hnv, hdd⟩
    rcases hstep with h | h
    · exact List.mem_append.mpr (Or.inl (List.mem_map.mpr
        ⟨n, List.mem_filter.mpr ⟨h, by simpa using hnv⟩, by rw [hdd]⟩))
    · exact List.mem_append.mpr (Or.inr (List.mem_map.mpr
        ⟨n, List.mem_filter.mpr ⟨h, by simpa using hnv⟩, by rw [hdd]⟩))

/-- Loop invariant of the `while queue:` loop of `get_community_size`.
`wf`: each entry `(c, d)` is reached by an undirected path of exactly `d`
hops.  `visPath`: every visited node lies within `maxd` hops.  `minEntry`:
an unvisited undirected neighbor of a visited node that is reachable within
`maxd` hops is queued at a depth no larger than any such path's hop count.
`headBound`: every node reachable within both `maxd` hops and strictly
fewer hops than the head entry's depth is already visited. -/
structure CSInv (g : SocialGraph) (maxd : Nat) (start : Int)
    (visited : List Int) (queue : List (Int × Nat)) : Prop where
  wf : ∀ c d, (c, d) ∈ queue →
    ∃ r, UPathFromTo g start c r ∧ r.length = d + 1
  sorted : List.Pairwise (fun x y => x.2 ≤ y.2) queue
  spread : ∀ x ∈ queue, ∀ y ∈ queue, x.2 ≤ y.2 + 1
  visNodup : visited.Nodup
  visPath : ∀ v ∈ visited, ∃ r, UPathFromTo g start v r ∧ r.length ≤ maxd + 1
  minEntry : ∀ v, v ∉ visited →
    (∃ u ∈ visited, ustep g u v) →
    ∀ r, UPathFromTo g start v r → r.length ≤ maxd + 1 →
      ∃ d', (v, d') ∈ queue ∧ d' + 1 ≤ r.length
  headBound : ∀ c₀ d₀ rest, queue = (c₀, d₀) :: rest →
    ∀ x r, UPathFromTo g start x r → r.length ≤ maxd + 1 →
      r.length ≤ d₀ → x ∈ visited
  startNew : visited = [] → queue = [(start, 0)]
  startVis : visited ≠ [] → start ∈ visited

theorem CSInv_init (g : SocialGraph) (maxd : Nat) (start : Int) :
    CSInv g maxd start [] [(start, 0)] := by
  refine ⟨?_, ?_, ?_, ?_, ?_, ?_, ?_, ?_, ?_⟩
  · intro c d h
    rcases List.mem_cons.mp h with h | h
    · have h1 : c = start := congrArg Prod.fst h
      have h2 : d = 0 := congrArg Prod.snd h
      rw [h1, h2]
      exact ⟨[start], upft_single g start, rfl⟩
    · exact absurd h (List.not_mem_nil _)
  · exact List.pairwise_singleton _ _
  · intro x hx y hy
    rcases List.mem_cons.mp hx with rfl | hx
    · exact Nat.le_add_left _ _
    · exact absurd hx (List.not_mem_nil _)
  · exact List.nodup_nil
  · intro v hv
    exact absurd hv (List.not_mem_nil _)
  · intro v hv hex r hr hm
    rcases hex with ⟨u, hu, -⟩
    exact absurd hu (List.not_mem_nil _)
  · intro c₀ d₀ rest hqe x r hr hm hlen
    exfalso
    injection hqe with h1 h2
    have hd₀ : d₀ = 0 := (congrArg Prod.snd h1).symm
    have hpos := upft_length_pos g start x r hr
    omega
  · intro _
    rfl
  · intro h
    exact absurd rfl h

theorem cs_frontier (g : SocialGraph) (maxd : Nat) (start : Int)
    (visited : List Int) (c : Int) (d : Nat) (rest : List (Int × Nat))
    (hinv : CSInv g maxd start visited ((c, d) :: rest))
    (x : Int) (r : List Int) (hr : UPathFromTo g start x r)
    (hmaxd : r.length ≤ maxd + 1) (hlen : r.length ≤ d + 1)
    (hxc : x ≠ c) (hxv : x ∉ visited) :
    ∃ d', (x, d') ∈ rest ∧ d' + 1 ≤ r.length := by
  by_cases h1 : r.length = 1
  · exfalso
    have hsx : start = x := upft_length_one g start x r hr h1
    by_cases hv : visited = []
    · have hq := hinv.startNew hv
      injection hq with ha hb
      have hcs : c = start := congrArg Prod.fst ha
      exact hxc (hsx ▸ hcs).symm
    · exact hxv (hsx ▸ hinv.startVis hv)
  · have h2 : 2 ≤ r.length := by
      have := upft_length_pos g start x r hr
      omega
    rcases upft_decomp g start x r hr h2 with ⟨q, x', hqe, hq, hstep, hqlen⟩
    have hx'v : x' ∈ visited := by
      apply hinv.headBound c d rest rfl x' q hq
      · omega
      · omega
    rcases hinv.minEntry x hxv ⟨x', hx'v, hstep⟩ r hr hmaxd with ⟨d', hd', hle⟩
    rcases List.mem_cons.mp hd' with hh | hh
    · exact absurd (congrArg Prod.fst hh) hxc
    · exact ⟨d', hh, hle⟩

theorem CSInv_skip (g : SocialGraph) (maxd : Nat) (start : Int)
    (visited : List Int) (c : Int) (d : Nat) (rest : List (Int × Nat))
    (hinv : CSInv g maxd start visited ((c, d) :: rest))
    (hc : c ∈ visited ∨ maxd < d) :
    CSInv g maxd start visited rest := by
  rcases List.pairwise_cons.mp hinv.sorted with ⟨hheadle, hrestsorted⟩
  refine ⟨?_, hrestsorted, ?_, hinv.visNodup, hinv.visPath, ?_, ?_, ?_,
    hinv.startVis⟩
  · intro c2 d2 h
    exact hinv.wf c2 d2 (List.mem_cons_of_mem _ h)
  · intro x hx y hy
    exact hinv.spread x (List.mem_cons_of_mem _ hx) y (List.mem_cons_of_mem _ hy)
  · intro v hv hex r hr hm
    rcases hinv.minEntry v hv hex r hr hm with ⟨d', hd', hle⟩
    rcases List.mem_cons.mp hd' with hh | hh
    · exfalso
      have hvc : v = c := congrArg Prod.fst hh
      have hdd : d' = d := congrArg Prod.snd hh
      rcases hc with hc | hc
      · exact hv (hvc ▸ hc)
      · omega
    · exact ⟨d', hh, hle⟩
  · intro c₁ d₁ rest₂ hqe x r hr hm hlen
    have hd₁mem : (c₁, d₁) ∈ rest := by
      rw [hqe]
      exact List.mem_cons_self _ _
    have hub : d₁ ≤ d + 1 :=
      hinv.spread (c₁, d₁) (List.mem_cons_of_mem _ hd₁mem) (c, d)
        (List.mem_cons_self _ _)
    by_cases hrd : r.length ≤ d
    · exact hinv.headBound c d rest rfl x r hr hm hrd
    have hrl : r.length = d + 1 := by omega
    rcases hc with hc | hc
    · by_cases hxc : x = c
      · rw [hxc]
        exact hc
      by_cases hxv : x ∈ visited
      · exact hxv
      exfalso
      rcases cs_frontier g maxd start visited c d rest hinv x r hr hm
        (by omega) hxc hxv with ⟨d', hd', hle⟩
      have hd₁d' : d₁ ≤ d' := by
        rw [hqe] at hd'
        rcases List.mem_cons.mp hd' with hh | hh
        · have : d' = d₁ := congrArg Prod.snd hh
          omega
        · rcases List.pairwise_cons.mp (hqe ▸ hrestsorted) with ⟨hhd2, -⟩
          exact hhd2 _ hh
      omega
    · exfalso
      omega
  · intro hv
    exfalso
    have hq := hinv.startNew hv
    injection hq with ha hb
    have hdz : d = 0 := congrArg Prod.snd ha
    rcases hc with hc | hc
    · rw [hv] at hc
      exact List.not_mem_nil c hc
    · omega

theorem CSInv_expand (g : SocialGraph) (maxd : Nat) (start : Int)
    (visited : List Int) (c : Int) (d : Nat) (rest : List (Int × Nat))
    (hinv : CSInv g maxd start visited ((c, d) :: rest))
    (hcv : c ∉ visited) (hdm : d ≤ maxd) :
    CSInv g maxd start (c :: visited)
      (rest ++ ((lookupD g.adjacency_list c).filter
          (fun n => decide (n ∉ c :: visited))).map (fun n => (n, d + 1))
        ++ ((lookupD g.reverse_adjacency_list c).filter
          (fun n => decide (n ∉ c :: visited))).map (fun n => (n, d + 1))) := by
  rw [List.append_assoc]
  set newE := ((lookupD g.adjacency_list c).filter
      (fun n => decide (n ∉ c :: visited))).map (fun n => (n, d + 1))
    ++ ((lookupD g.reverse_adjacency_list c).filter
      (fun n => decide (n ∉ c :: visited))).map (fun n => (n, d + 1)) with hnewE
  rcases hinv.wf c d (List.mem_cons_self _ _) with ⟨rc, hrc, hrclen⟩
  have hmemNew : ∀ n d2, (n, d2) ∈ newE ↔
      (ustep g c n ∧ n ∉ c :: visited ∧ d2 = d + 1) :=
    fun n d2 => mem_cs_entries g c d visited n d2
  have hlenNew : ∀ x ∈ newE, x.2 = d + 1 := by
    intro x hx
    rcases x with ⟨n, d2⟩
    rcases (hmemNew n d2).mp hx with ⟨-, -, hdd⟩
    exact hdd
  rcases List.pairwise_cons.mp hinv.sorted with ⟨hheadle, hrestsorted⟩
  refine ⟨?_, ?_, ?_, ?_, ?_, ?_, ?_, ?_, ?_⟩
  · intro c2 d2 h
    rcases List.mem_append.mp h with h | h
    · exact hinv.wf c2 d2 (List.mem_cons_of_mem _ h)
    · rcases (hmemNew c2 d2).mp h with ⟨hstep, -, hdd⟩
      refine ⟨rc ++ [c2], upft_extend g start c c2 rc hrc hstep, ?_⟩
      simp only [List.length_append, List.length_cons, List.length_nil]
      omega
  · rw [List.pairwise_append]
    refine ⟨hrestsorted, ?_, ?_⟩
    · apply List.pairwise_of_forall_mem_list
      intro a ha b hb
      rw [hlenNew a ha, hlenNew b hb]
    · intro a ha b hb
      rw [hlenNew b hb]
      exact hinv.spread a (List.mem_cons_of_mem _ ha) (c, d)
        (List.mem_cons_self _ _)
  · intro x hx y hy
    rcases List.mem_append.mp hx with hx | hx <;>
      rcases List.mem_append.mp hy with hy | hy
    · exact hinv.spread x (List.mem_cons_of_mem _ hx) y
        (List.mem_cons_of_mem _ hy)
    · rw [hlenNew y hy]
      have h2 : x.2 ≤ d + 1 := hinv.spread x (List.mem_cons_of_mem _ hx)
        (c, d) (List.mem_cons_self _ _)
      omega
    · rw [hlenNew x hx]
      have h2 : d ≤ y.2 := hheadle y hy
      omega
    · rw [hlenNew x hx, hlenNew y hy]
      omega
  · exact List.nodup_cons.mpr ⟨hcv, hinv.visNodup⟩
  · intro v hv
    rcases List.mem_cons.mp hv with hv | hv
    · rw [hv]
      exact ⟨rc, hrc, by omega⟩
    · exact hinv.visPath v hv
  · intro v hv hex r hr hm
    have hv1 : v ≠ c := fun hh => hv (hh ▸ List.mem_cons_self c visited)
    have hv2 : v ∉ visited := fun hh => hv (List.mem_cons_of_mem c hh)
    rcases hex with ⟨u, hu, hstep⟩
    rcases List.mem_cons.mp hu with hu | hu
    · rw [hu] at hstep
      by_cases hcase : d + 2 ≤ r.length
      · refine ⟨d + 1, List.mem_append.mpr
          (Or.inr ((hmemNew v _).mpr ⟨hstep, hv, rfl⟩)), by omega⟩
      · rcases cs_frontier g maxd start visited c d rest hinv v r hr hm
          (by omega) hv1 hv2 with ⟨d', hd', hle⟩
        exact ⟨d', List.mem_append.mpr (Or.inl hd'), hle⟩
    · rcases hinv.minEntry v hv2 ⟨u, hu, hstep⟩ r hr hm with ⟨d', hd', hle⟩
      rcases List.mem_cons.mp hd' with hh | hh
      · exact absurd (congrArg Prod.fst hh) hv1
      · exact ⟨d', List.mem_append.mpr (Or.inl hh), hle⟩
  · intro c₀ d₀ rest₀ hqe x r hr hm hlen
    have hd₀mem : (c₀, d₀) ∈ rest ++ newE := by
      rw [hqe]
      exact List.mem_cons_self _ _
    have hub : d₀ ≤ d + 1 := by
      rcases List.mem_append.mp hd₀mem with hmem | hmem
      · exact hinv.spread (c₀, d₀) (List.mem_cons_of_mem _ hmem) (c, d)
          (List.mem_cons_self _ _)
      · exact le_of_eq (hlenNew _ hmem)
    by_cases hrd : r.length ≤ d
    · exact List.mem_cons_of_mem c (hinv.headBound c d rest rfl x r hr hm hrd)
    by_cases hxc : x = c
    · rw [hxc]
      exact List.mem_cons_self _ _
    by_cases hxv : x ∈ visited
    · exact List.mem_cons_of_mem c hxv
    exfalso
    have hrl : r.length = d + 1 := by omega
    rcases cs_frontier g maxd start visited c d rest hinv x r hr hm
      (by omega) hxc hxv with ⟨d', hd', hle⟩
    cases hrest : rest with
    | nil =>
      rw [hrest] at hd'
      exact absurd hd' (List.not_mem_nil _)
    | cons hd2 tl =>
      rw [hrest] at hqe
      rw [List.cons_append] at hqe
      injection hqe with hhd htl
      have hd₀d' : d₀ ≤ d' := by
        rw [hrest] at hd'
        rcases List.mem_cons.mp hd' with hh | hh
        · have h3 : d' = d₀ := by
            rw [hhd] at hh
            exact congrArg Prod.snd hh
          omega
        · rw [hrest] at hrestsorted
          rcases List.pairwise_cons.mp hrestsorted with ⟨hhd2, -⟩
          have h4 : hd2.2 = d₀ := congrArg Prod.snd hhd
          rw [← h4]
          exact hhd2 _ hh
      omega
  · intro h
    exact absurd h (List.cons_ne_nil _ _)
  · intro _
    by_cases hv : visited = []
    · have hq := hinv.startNew hv
      injection hq with h1 h2
      have hcs : c = start := congrArg Prod.fst h1
      rw [hcs]
      exact List.mem_cons_self _ _
    · exact List.mem_cons_of_mem c (hinv.startVis hv)

theorem csLoop_correct (g : SocialGraph) (maxd : Nat) (start : Int) :
    ∀ (fuel : Nat) (visited : List Int) (queue : List (Int × Nat))
      (vis : List Int),
      CSInv g maxd start visited queue →
      csLoop g maxd fuel visited queue = some vis →
      vis.Nodup ∧
        ∀ v, (v ∈ vis ↔ ∃ r, UPathFromTo g start v r ∧
          r.length ≤ maxd + 1) := by
  intro fuel
  induction fuel with
  | zero =>
    intro visited queue vis _ h
    simp [csLoop] at h
  | succ fuel ih =>
    intro visited queue vis hinv h
    match queue with
    | [] =>
      have hvis : vis = visited := by
        have h0 : csLoop g maxd (fuel + 1) visited [] = some visited := rfl
        rw [h0] at h
        exact (Option.some.inj h).symm
      subst hvis
      refine ⟨hinv.visNodup, ?_⟩
      intro v
      constructor
      · intro hv
        exact hinv.visPath v hv
      · rintro ⟨r, hr, hrm⟩
        by_contra hv
        have hvisne : vis ≠ [] := by
          intro hb
          have hq := hinv.startNew hb
          exact List.cons_ne_nil _ _ hq.symm
        have hsvis : start ∈ vis := hinv.startVis hvisne
        have hmem : v ∈ r := mem_of_getLast?_eq r v hr.2.2
        rcases first_out_split r vis start hr.2.1 hsvis v hmem hv with
          ⟨u, w, t, hre, hu, huV, hw⟩
        rcases upft_take_seam g start v w r u t hr hre hu with ⟨hpw, hpwl⟩
        rcases upft_split_seam g start v w r u t hr hre hu with
          ⟨x, hxl, hxp, hxs⟩
        have hxv : x ∈ vis := huV x (mem_of_getLast?_eq u x hxl)
        rcases hinv.minEntry w hw ⟨x, hxv, hxs⟩ (u ++ [w]) hpw
          (le_trans hpwl hrm) with ⟨d', hd', -⟩
        exact absurd hd' (List.not_mem_nil _)
    | (c, d) :: rest =>
      by_cases hcd : c ∈ visited ∨ maxd < d
      · have hstep : csLoop g maxd (fuel + 1) visited ((c, d) :: rest) =
            csLoop g maxd fuel visited rest := by rw [csLoop, if_pos hcd]
        rw [hstep] at h
        exact ih visited rest vis
          (CSInv_skip g maxd start visited c d rest hinv hcd) h
      · have hstep : csLoop g maxd (fuel + 1) visited ((c, d) :: rest) =
            csLoop g maxd fuel (c :: visited)
              (rest ++ ((lookupD g.adjacency_list c).filter
                  (fun n => decide (n ∉ c :: visited))).map (fun n => (n, d + 1))
                ++ ((lookupD g.reverse_adjacency_list c).filter
                  (fun n => decide (n ∉ c :: visited))).map
                    (fun n => (n, d + 1))) := by
          rw [csLoop, if_neg hcd]
        rw [hstep] at h
        push_neg at hcd
        exact ih _ _ vis
          (CSInv_expand g maxd start visited c d rest hinv hcd.1
            (by omega)) h

/-- C6: `get_community_size(id, maxDepth)` returns the number of distinct
users reachable from `id` within at most `maxDepth` hops traversing edges
in both the forward and the reverse direction, counting the start user (a
path of `k` hops has `k + 1` nodes, whence the bound `maxDepth + 1` on node
counts below): users at undirected distance exactly `maxDepth` are counted,
strictly deeper ones are not.  An unregistered start id yields 0. -/
theorem spec_C6 (g : SocialGraph) (u : Int) (maxd : Nat) :
    (u ∉ dkeys g.adjacency_list → get_community_size g u maxd = 0) ∧
    (u ∈ dkeys g.adjacency_list → ∃ l : List Int, l.Nodup ∧
      (∀ v, v ∈ l ↔ ∃ r, UPathFromTo g u v r ∧ r.length ≤ maxd + 1) ∧
      get_community_size g u maxd = l.length) := by
  constructor
  · intro hu
    unfold get_community_size
    rw [if_pos hu]
  · intro hu
    have hsome : ∃ vis, csLoop g maxd (csFuel g) [] [(u, 0)] = some vis := by
      apply Option.isSome_iff_exists.mp
      apply csLoop_isSome
      rw [unvisSum_nil_visited, unvisSum_nil_visited]
      simp only [List.length_cons, List.length_nil, csFuel, totalAdjLen,
        totalRevLen]
      omega
    rcases hsome with ⟨vis, hvis⟩
    have hcor := csLoop_correct g maxd u (csFuel g) [] [(u, 0)] vis
      (CSInv_init g maxd u) hvis
    refine ⟨vis, hcor.1, hcor.2, ?_⟩
    unfold get_community_size
    rw [if_neg (fun hh => hh hu), hvis]
    rfl

/-- Witness for C6: on the graph where 1 follows 2 and 3 follows 2, from
user 1 the whole component is reached within 2 undirected hops; and an
unregistered start id yields 0. -/
theorem spec_C6_witness :
    get_community_size (follow_user (follow_user emptyGraph 1 2) 3 2) 99 2 = 0 ∧
    ∃ l : List Int, l.Nodup ∧
      (∀ v, v ∈ l ↔ ∃ r,
        UPathFromTo (follow_user (follow_user emptyGraph 1 2) 3 2) 1 v r ∧
          r.length ≤ 2 + 1) ∧
      get_community_size (follow_user (follow_user emptyGraph 1 2) 3 2) 1 2 =
        l.length :=
  ⟨(spec_C6 (follow_user (follow_user emptyGraph 1 2) 3 2) 99 2).1 (by decide),
   (spec_C6 (follow_user (follow_user emptyGraph 1 2) 3 2) 1 2).2 (by decide)⟩

end SocialNetwork
